import Mathlib

/-!
Verification of the oxtu UTXO-address index core against its specification.

The development shallowly embeds the Rust source of the repository:

* `crates/oxtu-index/src/types.rs` — the `U128Decimal` fixed-scale decimal
  (mantissa `u128`, scale `u8`).  Machine integers are modelled as `Nat`
  with explicit `2 ^ 128` overflow checks: every Rust arithmetic operation
  that can overflow or underflow (a fatal error per the spec, a panic with
  debug assertions) is modelled as an `Option`-returning checked operation,
  so `none` marks the panicking executions.
* `crates/oxtu-index/src/db.rs` — the five column families (`Block`,
  `BlockUndo`, `Utxo`, `UtxoKey`, `ScriptInfo`), `push`, `pop`, `peek`,
  `prune_until`, `get_utxo` and the `Utxo` prefix extractor.  The
  transactional store is modelled as five association-list tables with
  replace-on-put semantics; a write batch is the in-order application of
  its puts and deletes to those tables.  `U256` values (txids, hashes)
  enter the core only through the injective `U256::from_hex` and are
  modelled as `Nat` identifiers; raw script bytes are `List Nat`.
* `crates/oxtu/src/service.rs` — the `listunspent` bound computation and
  the `getaddressinfo` handler.

Hex decoding, JSON transport and the RocksDB engine itself are outside the
embedded core; the key serialization produced by the vendored `bincode`
configuration (varint, big-endian) is modelled from the spec where noted.
-/

namespace Oxtu

/-! ## Decimal value type (`types.rs`) -/

/-- The `U128Decimal` of `types.rs`: a mantissa (Rust `u128`, here a `Nat`
bounded by the checked operations) and a scale (Rust `u8`). -/
structure U128Decimal where
  mantissa : Nat
  scale : Nat
deriving DecidableEq, Repr

/-- One past the largest representable `u128` mantissa. -/
def u128Bound : Nat := 2 ^ 128

/-- Checked `u128` addition: Rust `+=` panics on overflow. -/
def checkedAdd (a b : Nat) : Option Nat :=
  if a + b < u128Bound then some (a + b) else none

/-- Checked `u128` multiplication: Rust `*=` panics on overflow. -/
def checkedMul (a b : Nat) : Option Nat :=
  if a * b < u128Bound then some (a * b) else none

/-- Checked `u128` subtraction: Rust `-=` panics on underflow. -/
def checkedSub (a b : Nat) : Option Nat :=
  if b ≤ a then some (a - b) else none

/-- Checked `10u128.pow(d)`: `pow` itself panics once the power leaves
`u128` range. -/
def pow10 (d : Nat) : Option Nat :=
  if 10 ^ d < u128Bound then some (10 ^ d) else none

namespace U128Decimal

/-- `U128Decimal::zero`. -/
def zero : U128Decimal := ⟨0, 0⟩

/-- `U128Decimal::is_zero`. -/
def is_zero (a : U128Decimal) : Bool := a.mantissa == 0

/-- `AddAssign for U128Decimal` (`types.rs` lines 91–108): rescale the
smaller-scale mantissa by `10 ^ Δscale`, then add; the result keeps
`max(a.scale, b.scale)`. -/
def add_assign (a b : U128Decimal) : Option U128Decimal :=
  let scale := max a.scale b.scale
  if a.scale < scale then do
    let p ← pow10 (scale - a.scale)
    let m ← checkedMul a.mantissa p
    let m ← checkedAdd m b.mantissa
    some ⟨m, scale⟩
  else if b.scale < scale then do
    let p ← pow10 (scale - b.scale)
    let r ← checkedMul b.mantissa p
    let m ← checkedAdd a.mantissa r
    some ⟨m, scale⟩
  else do
    let m ← checkedAdd a.mantissa b.mantissa
    some ⟨m, scale⟩

/-- `SubAssign for U128Decimal` (`types.rs` lines 110–127): the same
rescaling, with `u128` subtraction. -/
def sub_assign (a b : U128Decimal) : Option U128Decimal :=
  let scale := max a.scale b.scale
  if a.scale < scale then do
    let p ← pow10 (scale - a.scale)
    let m ← checkedMul a.mantissa p
    let m ← checkedSub m b.mantissa
    some ⟨m, scale⟩
  else if b.scale < scale then do
    let p ← pow10 (scale - b.scale)
    let r ← checkedMul b.mantissa p
    let m ← checkedSub a.mantissa r
    some ⟨m, scale⟩
  else do
    let m ← checkedSub a.mantissa b.mantissa
    some ⟨m, scale⟩

/-- The rational number a `U128Decimal` denotes: `mantissa / 10 ^ scale`. -/
def valQ (a : U128Decimal) : ℚ := (a.mantissa : ℚ) / 10 ^ a.scale

end U128Decimal

/-! ## Core key and row types (`db.rs`) -/

/-- `Vout` (`db.rs`): a transaction-output coordinate.  The `U256` txid is
modelled as a `Nat` identifier (hex decoding is injective). -/
structure Vout where
  txid : Nat
  n : Nat
deriving DecidableEq, Repr

/-- Raw script bytes (`Vec<u8>` in the source). -/
abbrev Script := List Nat

/-- `UtxoKey` (`db.rs`): the composite `Utxo` key `(script, height, vout)`,
doubling as the value type of the `utxo_key` reverse-lookup table. -/
structure UtxoKey where
  script : Script
  height : Nat
  vout : Vout
deriving DecidableEq, Repr

/-- `Utxo` (`db.rs`): a currently-unspent output, keyed by `UtxoKey` with
value `(coinbase, value)`. -/
structure Utxo where
  key : UtxoKey
  coinbase : Bool
  value : U128Decimal
deriving DecidableEq, Repr

/-- `ScriptInfo` (`db.rs`): the per-script running aggregates. -/
structure ScriptInfo where
  script : Script
  balance : U128Decimal
  total_sent : U128Decimal
  total_received : U128Decimal
  tx_count : Nat
deriving DecidableEq, Repr

/-- The stored value of a `script_info` row, `(balance, total_sent,
total_received, tx_count)` — the key (the script) is not repeated in the
value, exactly as `CFStruct::Value` for `ScriptInfo`. -/
structure SIVal where
  balance : U128Decimal
  total_sent : U128Decimal
  total_received : U128Decimal
  tx_count : Nat
deriving DecidableEq, Repr

namespace ScriptInfo

/-- `ScriptInfo::value` — project the stored row value. -/
def toVal (si : ScriptInfo) : SIVal :=
  ⟨si.balance, si.total_sent, si.total_received, si.tx_count⟩

/-- `ScriptInfo::assemble` — rebuild the struct from key and value. -/
def assemble (sc : Script) (v : SIVal) : ScriptInfo :=
  ⟨sc, v.balance, v.total_sent, v.total_received, v.tx_count⟩

/-- `ScriptInfo::new` — a fresh all-zero aggregate for a script. -/
def new (sc : Script) : ScriptInfo :=
  ⟨sc, U128Decimal.zero, U128Decimal.zero, U128Decimal.zero, 0⟩

/-- `ScriptInfo::add_unspent` (`db.rs` lines 318–322). -/
def add_unspent (si : ScriptInfo) (value : U128Decimal) : Option ScriptInfo := do
  let b ← si.balance.add_assign value
  let r ← si.total_received.add_assign value
  some { si with balance := b, total_received := r, tx_count := si.tx_count + 1 }

/-- `ScriptInfo::add_spent` (`db.rs` lines 324–328). -/
def add_spent (si : ScriptInfo) (value : U128Decimal) : Option ScriptInfo := do
  let b ← si.balance.sub_assign value
  let s ← si.total_sent.add_assign value
  some { si with balance := b, total_sent := s, tx_count := si.tx_count + 1 }

end ScriptInfo

/-- `Undo` (`db.rs` lines 162–170): the six undo-record variants. -/
inductive Undo where
  | UtxoPut : Utxo → Undo
  | UtxoDelete : UtxoKey → Undo
  | UtxoKeyPut : UtxoKey → Undo
  | UtxoKeyDelete : Vout → Undo
  | ScriptInfoPut : ScriptInfo → Undo
  | ScriptInfoDelete : Script → Undo
deriving DecidableEq, Repr

/-- `Block` (`db.rs`): one indexed block header row. -/
structure Block where
  height : Nat
  hash : Nat
  prev_hash : Nat
deriving DecidableEq, Repr

/-! ## RPC block input (`rpc.rs`) -/

namespace Rpc

/-- `rpc::Vin`: either cites a prior output (`txid` present, `vout`
expected) or marks the transaction coinbase (`txid` absent). -/
structure Vin where
  txid : Option Nat
  vout : Option Nat
deriving DecidableEq, Repr

/-- `rpc::Vout`: output index, raw script-pubkey bytes (the source hex
string, decoded) and decimal value. -/
structure Vout where
  n : Nat
  script_pub_key : Script
  value : U128Decimal
deriving DecidableEq, Repr

/-- `rpc::Tx`: the fields `push` reads. -/
structure Tx where
  txid : Nat
  vin : List Vin
  vout : List Vout
deriving DecidableEq, Repr

/-- `rpc::Block`: the fields `push` reads.  An absent
`previousblockhash` becomes the zero hash. -/
structure Block where
  hash : Nat
  previousblockhash : Option Nat
  height : Nat
  tx : List Tx
deriving DecidableEq, Repr

end Rpc

/-! ## Association-list tables

Each column family is a finite map modelled as an association list.  `tput`
replaces any existing binding (RocksDB `put` overwrites), `tdel` removes
the binding, `tget` is a point read.  Physical ordering of the list is not
meaningful; lemmas are stated through `tget`. -/

/-- Point read of a key. -/
def tget {K V : Type} [DecidableEq K] (t : List (K × V)) (k : K) : Option V :=
  (t.find? fun kv => decide (kv.1 = k)).map Prod.snd

/-- Put with replace semantics. -/
def tput {K V : Type} [DecidableEq K] (t : List (K × V)) (k : K) (v : V) :
    List (K × V) :=
  (k, v) :: t.filter fun kv => decide (kv.1 ≠ k)

/-- Delete a key. -/
def tdel {K V : Type} [DecidableEq K] (t : List (K × V)) (k : K) :
    List (K × V) :=
  t.filter fun kv => decide (kv.1 ≠ k)

/-! ## Committed database state

The five column families of `Db::open`.  `Block` rows map `height ↦
(hash, prev_hash)`, `BlockUndo` rows `height ↦ Vec<Undo>`, `Utxo` rows
`UtxoKey ↦ (coinbase, value)`, `UtxoKey` rows `Vout ↦ (height, script)`
and `ScriptInfo` rows `script ↦ SIVal`, matching each `CFStruct`
implementation's `Key`/`Value` pair. -/
structure DbState where
  block : List (Nat × (Nat × Nat))
  blockUndo : List (Nat × List Undo)
  utxo : List (UtxoKey × (Bool × U128Decimal))
  utxoKey : List (Vout × (Nat × Script))
  scriptInfo : List (Script × SIVal)
deriving DecidableEq, Repr

/-- A freshly opened, empty store. -/
def dbEmpty : DbState := ⟨[], [], [], [], []⟩

/-- `Db::get_utxo` (`db.rs` lines 571–575): resolve a cited outpoint via
the `UtxoKey` reverse lookup, then read the `Utxo` row; either missing row
is a panic (`none`). -/
def get_utxo (s : DbState) (vout : Vout) : Option Utxo := do
  let (height, script) ← tget s.utxoKey vout
  let key : UtxoKey := ⟨script, height, vout⟩
  let (coinbase, value) ← tget s.utxo key
  some ⟨key, coinbase, value⟩

/-- `Db::get_block`. -/
def get_block (s : DbState) (height : Nat) : Option Block :=
  (tget s.block height).map fun hp => ⟨height, hp.1, hp.2⟩

/-- `Db::get_script_info`. -/
def get_script_info (s : DbState) (script : Script) : Option ScriptInfo :=
  (tget s.scriptInfo script).map (ScriptInfo.assemble script)

/-! ## The block applier `Db::push` (`db.rs` lines 429–552)

The in-memory staging of one block: the growing undo list, the
`staged_utxos` map (`HashMap<Vout, Utxo>`) and the `staged_infos` map
(`HashMap<Vec<u8>, ScriptInfo>`).  The Rust `HashMap`s are modelled as
association lists; the final iteration order over them is unspecified in
Rust and fixed here to list order, which no verified claim depends on. -/
structure Staging where
  undos : List Undo
  utxos : List (Vout × Utxo)
  infos : List (Script × ScriptInfo)
deriving DecidableEq, Repr

/-- The `update_info` closure of `push` (`db.rs` lines 437–457): mutate the
staged aggregate for a script, seeding it on first touch from disk (with a
`ScriptInfoPut` undo) or freshly (with a `ScriptInfoDelete` undo).  The
mutation `f` is `add_spent`/`add_unspent`, whose decimal arithmetic can
panic, hence `Option`. -/
def update_info (s : DbState) (st : Staging) (script : Script)
    (f : ScriptInfo → Option ScriptInfo) : Option Staging :=
  match tget st.infos script with
  | some info => do
      let info' ← f info
      some { st with infos := tput st.infos script info' }
  | none =>
      match tget s.scriptInfo script with
      | none => do
          let info' ← f (ScriptInfo.new script)
          some { st with
            undos := st.undos ++ [Undo.ScriptInfoDelete script],
            infos := tput st.infos script info' }
      | some v => do
          let info' ← f (ScriptInfo.assemble script v)
          some { st with
            undos := st.undos ++ [Undo.ScriptInfoPut (ScriptInfo.assemble script v)],
            infos := tput st.infos script info' }

/-- One `tx_vin` of the vin loop (`db.rs` lines 463–490).  The boolean is
the transaction's `coinbase` flag accumulated so far.  A cited outpoint is
first sought in `staged_utxos` (removal, no `UtxoPut`/`UtxoKeyPut` undos);
otherwise it is read from disk and `UtxoKeyPut`/`UtxoPut` undos are
recorded.  A `txid` without `vout` is the `expect` panic. -/
def processVin (s : DbState) (st : Staging) (vin : Rpc.Vin) (coinbase : Bool) :
    Option (Staging × Bool) :=
  match vin.txid with
  | none => some (st, true)
  | some txid => do
      let n ← vin.vout
      let vout : Vout := ⟨txid, n⟩
      match tget st.utxos vout with
      | some utxo => do
          let st' ← update_info s { st with utxos := tdel st.utxos vout }
            utxo.key.script (fun i => i.add_spent utxo.value)
          some (st', coinbase)
      | none => do
          let utxo ← get_utxo s vout
          let st' ← update_info s st utxo.key.script (fun i => i.add_spent utxo.value)
          some ({ st' with
            undos := st'.undos ++ [Undo.UtxoKeyPut utxo.key, Undo.UtxoPut utxo] }, coinbase)

/-- The vin loop of one transaction. -/
def processVins (s : DbState) : Staging → Bool → List Rpc.Vin → Option (Staging × Bool)
  | st, coinbase, [] => some (st, coinbase)
  | st, coinbase, vin :: rest => do
      let (st', coinbase') ← processVin s st vin coinbase
      processVins s st' coinbase' rest

/-- One `tx_vout` of the vout loop (`db.rs` lines 492–508): build the
`Utxo` at this block's height, update the aggregate, stage it. -/
def processVout (s : DbState) (height txid : Nat) (coinbase : Bool) (st : Staging)
    (tv : Rpc.Vout) : Option Staging := do
  let utxo : Utxo :=
    ⟨⟨tv.script_pub_key, height, ⟨txid, tv.n⟩⟩, coinbase, tv.value⟩
  let st' ← update_info s st utxo.key.script (fun i => i.add_unspent utxo.value)
  some { st' with utxos := tput st'.utxos utxo.key.vout utxo }

/-- The vout loop of one transaction. -/
def processVouts (s : DbState) (height txid : Nat) (coinbase : Bool) :
    Staging → List Rpc.Vout → Option Staging
  | st, [] => some st
  | st, tv :: rest => do
      let st' ← processVout s height txid coinbase st tv
      processVouts s height txid coinbase st' rest

/-- One transaction of `push`: all vins (accumulating the coinbase flag
from absent input txids), then all vouts under the final flag. -/
def processTx (s : DbState) (height : Nat) (st : Staging) (tx : Rpc.Tx) :
    Option Staging := do
  let (st', coinbase) ← processVins s st false tx.vin
  processVouts s height tx.txid coinbase st' tx.vout

/-- The transaction loop of `push`. -/
def processTxs (s : DbState) (height : Nat) : Staging → List Rpc.Tx → Option Staging
  | st, [] => some st
  | st, tx :: rest => do
      let st' ← processTx s height st tx
      processTxs s height st' rest

/-- The staging produced by one block, starting from empty staging. -/
def processBlock (s : DbState) (b : Rpc.Block) : Option Staging :=
  processTxs s b.height ⟨[], [], []⟩ b.tx

/-- The `UtxoDelete`/`UtxoKeyDelete` undos appended while writing the
surviving staged UTXOs (`db.rs` lines 511–518), in iteration order. -/
def stagedUndos : List (Vout × Utxo) → List Undo
  | [] => []
  | (vout, utxo) :: rest =>
      Undo.UtxoDelete utxo.key :: Undo.UtxoKeyDelete vout :: stagedUndos rest

/-- The complete undo list stored in the `BlockUndo` row. -/
def finalUndos (st : Staging) : List Undo :=
  st.undos ++ stagedUndos st.utxos

/-- Apply the write batch assembled by `push` to the committed state, in
batch order: `Utxo`/`UtxoKey` puts for surviving staged UTXOs,
`ScriptInfo` puts, then the deletes driven by the undo scan (`db.rs` lines
524–537: a `UtxoPut` undo deletes the spent `Utxo` row, a `UtxoKeyPut`
undo deletes its reverse-lookup row), then the `Block` and `BlockUndo`
puts. -/
def applyBlock (s : DbState) (b : Rpc.Block) (st : Staging) : DbState :=
  let utxo1 := st.utxos.foldl
    (fun t kv => tput t kv.2.key (kv.2.coinbase, kv.2.value)) s.utxo
  let utxoKey1 := st.utxos.foldl
    (fun t kv => tput t kv.1 (kv.2.key.height, kv.2.key.script)) s.utxoKey
  let scriptInfo1 := st.infos.foldl
    (fun t kv => tput t kv.2.script kv.2.toVal) s.scriptInfo
  let undos := finalUndos st
  let utxo2 := undos.foldl
    (fun t u => match u with | Undo.UtxoPut x => tdel t x.key | _ => t) utxo1
  let utxoKey2 := undos.foldl
    (fun t u => match u with | Undo.UtxoKeyPut k => tdel t k.vout | _ => t) utxoKey1
  { block := tput s.block b.height (b.hash, b.previousblockhash.getD 0)
    blockUndo := tput s.blockUndo b.height undos
    utxo := utxo2
    utxoKey := utxoKey2
    scriptInfo := scriptInfo1 }

/-- `Db::push`: stage the block, then commit the batch.  `none` is any of
the panics (`expect`/`unwrap`/decimal overflow) along the way. -/
def push (s : DbState) (b : Rpc.Block) : Option DbState :=
  (processBlock s b).map (applyBlock s b)

/-! ## `Db::peek`, `Db::pop`, `Db::prune_until` -/

/-- `Db::peek` (`db.rs` lines 390–392): the `Block` row with maximal
height.  The source takes the last row of a forward iterator
(`IteratorMode::End`); the stored keys are the varint big-endian encoding
of the height, whose lexicographic order is the numeric order (proved
below as `serU64_lt_iff`), so the last row is the maximal height. -/
def peek (s : DbState) : Option Block :=
  s.block.foldl
    (fun acc kv =>
      match acc with
      | none => some (⟨kv.1, kv.2.1, kv.2.2⟩ : Block)
      | some best => if best.height < kv.1 then some ⟨kv.1, kv.2.1, kv.2.2⟩ else some best)
    none

/-- `Db::pop` (`db.rs` lines 394–427): read the tip (panic when empty),
read its `BlockUndo` row (panic when absent), assemble a delete/replay
batch — and return the tip block.  The source never calls
`self.rocksdb.write(batch)`: the batch it builds is dropped, so the
committed state is returned unchanged. -/
def pop (s : DbState) : Option (Block × DbState) := do
  let block ← peek s
  let _undo ← tget s.blockUndo block.height
  some (block, s)

/-- Membership of an encoded key in the half-open scan range
`[lower, upper)` used by `prune_until`, under the bytewise lexicographic
order of the store. -/
def lexLtB : List Nat → List Nat → Bool
  | _, [] => false
  | [], _ :: _ => true
  | a :: as, b :: bs => a < b || (a == b && lexLtB as bs)

/-- Big-endian fixed-width byte string of a number, `k` bytes. -/
def beBytes : Nat → Nat → List Nat
  | 0, _ => []
  | k + 1, n => n / 256 ^ k :: beBytes k (n % 256 ^ k)

/-- Modelled from the spec: the varint big-endian encoding of an unsigned
integer produced by the vendored `bincode` configuration
(`DefaultOptions::new().with_varint_encoding().with_big_endian()`, `db.rs`
lines 15–37; the bincode crate itself is not part of this repository).
Values `0..=250` are a single byte; `251`, `252`, `253` introduce
big-endian `u16`, `u32`, `u64` payloads. -/
def serU64 (n : Nat) : List Nat :=
  if n ≤ 250 then [n]
  else if n < 2 ^ 16 then 251 :: beBytes 2 n
  else if n < 2 ^ 32 then 252 :: beBytes 4 n
  else 253 :: beBytes 8 n

/-- `Db::prune_until` (`db.rs` lines 554–569): scan `Block` rows whose
encoded keys fall in `[serialize(0), serialize(height))` and delete, for
each, its `Block` row and its `BlockUndo` row. -/
def prune_until (s : DbState) (height : Nat) : DbState :=
  let inRange : Nat → Bool := fun k =>
    !lexLtB (serU64 k) (serU64 0) && lexLtB (serU64 k) (serU64 height)
  { s with
    block := s.block.filter fun kv => !inRange kv.1
    blockUndo := s.blockUndo.filter fun kv =>
      !(inRange kv.1 && (tget s.block kv.1).isSome) }

/-! ## The `Utxo` key encoding and prefix extractor -/

/-- Modelled from the spec: the serialized `Utxo`-key bytes open with the
script under a self-delimiting length prefix (`bincode` varint big-endian
serialization of `Vec<u8>`: the length, then the raw bytes). -/
def encodeScript (sc : Script) : List Nat := serU64 sc.length ++ sc

/-- The serialized composite `Utxo` key `(script, height, vout)`, fields
in declaration order: length-prefixed script, varint height, 32 raw txid
bytes, varint output index. -/
def utxoKeyBytes (k : UtxoKey) : List Nat :=
  encodeScript k.script ++ (serU64 k.height ++ (beBytes 32 k.vout.txid ++ serU64 k.vout.n))

/-- The `Utxo` column family's prefix extractor (`db.rs` lines 222–244):
one length byte up to `250`, or `251` followed by a big-endian `u16`
length; any other lead byte panics (`none`), as does indexing past a short
key. -/
def scriptPrefixExtract (key : List Nat) : Option (List Nat) :=
  match key with
  | [] => none
  | b :: rest =>
      if b ≤ 250 then some (key.take (b + 1))
      else if b = 251 then
        match rest with
        | b1 :: b2 :: _ => some (key.take (3 + (b1 * 256 + b2)))
        | _ => none
      else none

/-! ## The RPC service handlers (`service.rs`) -/

/-- `ListUnspentQueryOptions` (`service.rs`). -/
structure QueryOptions where
  minconf : Option Nat
  maxconf : Option Nat
  count : Option Nat
deriving DecidableEq, Repr

/-- The largest `u64`, the `checked_sub` fallback of the lower bound. -/
def u64MAX : Nat := 2 ^ 64 - 1

/-- The lower height bound of `listunspent` (`service.rs` lines 93–102):
`tip.height.checked_sub(maxconf).map(|l| l + 1).unwrap_or(u64::MAX)` when
`maxconf` is present. -/
def listunspentLower (tip : Nat) (q : Option QueryOptions) : Option Nat :=
  (q.bind QueryOptions.maxconf).map fun maxconf =>
    ((checkedSub tip maxconf).map fun lower => lower + 1).getD u64MAX

/-- The upper height bound of `listunspent` (`service.rs` lines 104–114):
`tip.height.checked_sub(minconf).map(|u| u + 2).unwrap_or(u64::MIN)` when
`minconf` is present (the store's upper bound is exclusive, hence `+ 2`). -/
def listunspentUpper (tip : Nat) (q : Option QueryOptions) : Option Nat :=
  (q.bind QueryOptions.minconf).map fun minconf =>
    ((checkedSub tip minconf).map fun upper => upper + 2).getD 0

/-- One returned `Utxo` entry of `listunspent` (`service.rs`; the address
and its hex rendering of the script are presentation only and carry no
extra state). -/
structure UnspentOut where
  txid : Nat
  vout : Nat
  script_pub_key : Script
  amount : U128Decimal
  confirmations : Nat
  height : Nat
  coinbase : Bool
deriving DecidableEq, Repr

/-- Membership in the half-open height window `[lower, upper)` selected by
the prefix iterator's bounds. -/
def heightInBounds (lower upper : Option Nat) (h : Nat) : Bool :=
  (match lower with | none => true | some lo => decide (lo ≤ h)) &&
    (match upper with | none => true | some up => decide (h < up))

/-- The `listunspent` handler (`service.rs` lines 84–142).  The tip read
is `peek().expect(..)`: an empty `Block` table is a panic (`none`).  The
prefix scan `iterator_script_utxo` is modelled semantically: the `Utxo`
rows whose key script equals the queried script and whose height lies in
the computed window (§3.2 of the spec and the extractor theorem below
justify that the prefix iterator selects exactly the script's rows). -/
def listunspent (s : DbState) (script : Script) (q : Option QueryOptions)
    (maxCount : Nat) : Option (List UnspentOut) := do
  let tip ← peek s
  let lower := listunspentLower tip.height q
  let upper := listunspentUpper tip.height q
  let count := ((q.bind QueryOptions.count).filter fun c => decide (c ≤ maxCount)).getD maxCount
  let rows := (s.utxo.filter fun kv =>
    decide (kv.1.script = script) && heightInBounds lower upper kv.1.height).take count
  some (rows.map fun kv =>
    ⟨kv.1.vout.txid, kv.1.vout.n, script, kv.2.2,
      tip.height - kv.1.height + 1, kv.1.height, kv.2.1⟩)

/-- `AddressInfo` (`service.rs`), minus the echoed address string. -/
structure AddressInfo where
  balance : U128Decimal
  total_sent : U128Decimal
  total_received : U128Decimal
  tx_count : Nat
deriving DecidableEq, Repr

/-- The `getaddressinfo` handler (`service.rs` lines 144–166): a missing
`ScriptInfo` row yields the all-zero aggregate; no panic is possible past
address parsing. -/
def getaddressinfo (s : DbState) (script : Script) : AddressInfo :=
  match tget s.scriptInfo script with
  | none => ⟨U128Decimal.zero, U128Decimal.zero, U128Decimal.zero, 0⟩
  | some v => ⟨v.balance, v.total_sent, v.total_received, v.tx_count⟩

/-! ## Flattened block processing

The vin/vout loops of `push` are re-expressed as one list of primitive
operations — spend an outpoint, create a staged UTXO — with the per-
transaction coinbase flag precomputed.  `processBlock_eq_processOps` below
proves this equal to the faithful nested loops; the heavier invariant
proofs run over the flat list. -/

/-- A primitive staging operation of one block. -/
inductive BlockOp where
  | spend : Vout → BlockOp
  | create : Utxo → BlockOp
deriving DecidableEq, Repr

/-- The outpoints one `vin` cites: none for a coinbase marker, a panic
(`none`) for a `txid` without `vout`. -/
def vinSpends : Rpc.Vin → Option (List Vout)
  | ⟨none, _⟩ => some []
  | ⟨some t, some n⟩ => some [⟨t, n⟩]
  | ⟨some _, none⟩ => none

/-- All outpoints a vin list cites, in order. -/
def txSpends : List Rpc.Vin → Option (List Vout)
  | [] => some []
  | vin :: rest => do
      let s1 ← vinSpends vin
      let s2 ← txSpends rest
      some (s1 ++ s2)

/-- The final coinbase flag of one transaction: some vin has no `txid`. -/
def txCb (tx : Rpc.Tx) : Bool := tx.vin.any fun vin => vin.txid.isNone

/-- The create operations of one transaction at a block height. -/
def createOps (height : Nat) (tx : Rpc.Tx) : List BlockOp :=
  tx.vout.map fun tv =>
    BlockOp.create ⟨⟨tv.script_pub_key, height, ⟨tx.txid, tv.n⟩⟩, txCb tx, tv.value⟩

/-- The flat operation list of a block: per transaction, its spends then
its creates. -/
def blockOps (height : Nat) : List Rpc.Tx → Option (List BlockOp)
  | [] => some []
  | tx :: rest => do
      let sp ← txSpends tx.vin
      let others ← blockOps height rest
      some (sp.map BlockOp.spend ++ createOps height tx ++ others)

/-- One flat operation on the staging, exactly the two vin branches and
the vout body of `push`. -/
def applyOp (s : DbState) (st : Staging) : BlockOp → Option Staging
  | BlockOp.spend v =>
      match tget st.utxos v with
      | some utxo =>
          update_info s { st with utxos := tdel st.utxos v } utxo.key.script
            (fun i => i.add_spent utxo.value)
      | none => do
          let utxo ← get_utxo s v
          let st' ← update_info s st utxo.key.script (fun i => i.add_spent utxo.value)
          some { st' with
            undos := st'.undos ++ [Undo.UtxoKeyPut utxo.key, Undo.UtxoPut utxo] }
  | BlockOp.create u => do
      let st' ← update_info s st u.key.script (fun i => i.add_unspent u.value)
      some { st' with utxos := tput st'.utxos u.key.vout u }

/-- Left-to-right processing of a flat operation list. -/
def processOps (s : DbState) : Staging → List BlockOp → Option Staging
  | st, [] => some st
  | st, op :: rest => do
      let st' ← applyOp s st op
      processOps s st' rest

/-- The outpoints spent by a flat operation list. -/
def spendVouts (ops : List BlockOp) : List Vout :=
  ops.filterMap fun op => match op with | BlockOp.spend v => some v | _ => none

/-- The outpoints created by a flat operation list. -/
def createVouts (ops : List BlockOp) : List Vout :=
  ops.filterMap fun op => match op with | BlockOp.create u => some u.key.vout | _ => none

/-- The outpoints created by a transaction list (independent of success). -/
def createdVouts (txs : List Rpc.Tx) : List Vout :=
  txs.flatMap fun tx => tx.vout.map fun tv => (⟨tx.txid, tv.n⟩ : Vout)

/-- The outpoints one transaction cites (vins with both fields present). -/
def citedOfTx (tx : Rpc.Tx) : List Vout :=
  tx.vin.filterMap fun vin =>
    match vin.txid, vin.vout with
    | some t, some n => some (⟨t, n⟩ : Vout)
    | _, _ => none

/-- The outpoints a transaction list cites. -/
def citedVouts (txs : List Rpc.Tx) : List Vout :=
  txs.flatMap citedOfTx

/-! ## Value accounting -/

/-- The decimal sum (as rationals) of the `Utxo` rows of one script. -/
def utxoSum (t : List (UtxoKey × (Bool × U128Decimal))) (sc : Script) : ℚ :=
  ((t.filter fun kv => decide (kv.1.script = sc)).map fun kv => kv.2.2.valQ).sum

/-- The spent UTXOs recorded in an undo list (its `UtxoPut` payloads). -/
def spentOf (us : List Undo) : List Utxo :=
  us.filterMap fun u => match u with | Undo.UtxoPut x => some x | _ => none

/-- The staged balance a script would report from disk: the stored
balance, or zero when the row is absent (the `ScriptInfo::new` seed). -/
def diskBal (s : DbState) (sc : Script) : ℚ :=
  match tget s.scriptInfo sc with
  | some v => v.balance.valQ
  | none => 0

/-- The decimal sum of the staged UTXOs of one script. -/
def stagedSum (l : List (Vout × Utxo)) (sc : Script) : ℚ :=
  ((l.filter fun kv => decide (kv.2.key.script = sc)).map
    fun kv => kv.2.value.valQ).sum

/-- The decimal sum of the disk UTXOs of one script already marked spent. -/
def spentSum (us : List Undo) (sc : Script) : ℚ :=
  (((spentOf us).filter fun u => decide (u.key.script = sc)).map
    fun u => u.value.valQ).sum

/-- The aggregate identity of one `ScriptInfo` row:
`balance = total_received − total_sent` as decimal values. -/
def infoIdent (balance total_sent total_received : U128Decimal) : Prop :=
  balance.valQ = total_received.valQ - total_sent.valQ

/-- The per-script balance invariant of a committed state: `Utxo` keys are
unrepeated, every `Utxo` row's script has a `ScriptInfo` row, and every
stored balance is the decimal sum of its script's unspent rows. -/
structure DbInv (s : DbState) : Prop where
  utxoNodup : (s.utxo.map Prod.fst).Nodup
  utxoInfo : ∀ kv ∈ s.utxo, (tget s.scriptInfo kv.1.script).isSome
  balance : ∀ sc v, tget s.scriptInfo sc = some v → v.balance.valQ = utxoSum s.utxo sc

/-- Block well-formedness against a state: created outpoints are pairwise
distinct, cited outpoints are pairwise distinct, and no created outpoint
already owns a `Utxo` row (txid freshness). -/
structure WFBlock (b : Rpc.Block) (s : DbState) : Prop where
  createdNodup : (createdVouts b.tx).Nodup
  citedNodup : (citedVouts b.tx).Nodup
  createdFresh : ∀ v ∈ createdVouts b.tx, ∀ kv ∈ s.utxo, kv.1.vout ≠ v

/-- Mid-processing invariant tying the staging to the (unchanged) disk
state: staged keys are their UTXOs' outpoints, unrepeated and fresh;
recorded spends are genuine unrepeated disk rows; staged aggregates are
keyed by their script and account exactly for the staged and spent values;
untouched scripts have no staged or spent activity. -/
structure MidInv (s : DbState) (st : Staging) : Prop where
  stagedNodup : (st.utxos.map Prod.fst).Nodup
  stagedVout : ∀ kv ∈ st.utxos, kv.2.key.vout = kv.1
  stagedFresh : ∀ kv ∈ st.utxos, ∀ du ∈ s.utxo, du.1.vout ≠ kv.1
  spentDisk : ∀ u ∈ spentOf st.undos, tget s.utxo u.key = some (u.coinbase, u.value)
  spentNodup : ((spentOf st.undos).map fun u => u.key.vout).Nodup
  infosNodup : (st.infos.map Prod.fst).Nodup
  infosKey : ∀ kv ∈ st.infos, kv.2.script = kv.1
  balanceEq : ∀ sc info, tget st.infos sc = some info →
    info.balance.valQ = diskBal s sc + stagedSum st.utxos sc - spentSum st.undos sc
  untouchedStaged : ∀ sc, tget st.infos sc = none → ∀ kv ∈ st.utxos, kv.2.key.script ≠ sc
  untouchedSpent : ∀ sc, tget st.infos sc = none → ∀ u ∈ spentOf st.undos, u.key.script ≠ sc

/-- Compatibility of the remaining operations with the staging built so
far: spends and creates unrepeated, no pending spend re-spends an already
marked disk row, no pending create collides with a staged or disk
outpoint. -/
structure OpsOK (s : DbState) (st : Staging) (ops : List BlockOp) : Prop where
  spendsNodup : (spendVouts ops).Nodup
  createsNodup : (createVouts ops).Nodup
  spendsNew : ∀ v ∈ spendVouts ops, v ∉ (spentOf st.undos).map fun u => u.key.vout
  createsUnstaged : ∀ v ∈ createVouts ops, v ∉ st.utxos.map Prod.fst
  createsFresh : ∀ v ∈ createVouts ops, ∀ du ∈ s.utxo, du.1.vout ≠ v

/-- States reachable by successful pushes from the empty store. -/
inductive Reachable : DbState → Prop
  | empty : Reachable dbEmpty
  | step {s : DbState} {b : Rpc.Block} {s' : DbState} :
      Reachable s → push s b = some s' → Reachable s'

/-- States reachable by successful pushes of well-formed blocks. -/
inductive ReachableWF : DbState → Prop
  | empty : ReachableWF dbEmpty
  | step {s : DbState} {b : Rpc.Block} {s' : DbState} :
      ReachableWF s → WFBlock b s → push s b = some s' → ReachableWF s'

/-! ## Concrete inputs for counterexamples and witnesses -/

/-- A coinbase-only block at height 0: one transaction (txid 100) with a
single coinbase vin and one 50-valued output to script `[1]`. -/
def cb0 : Rpc.Block :=
  ⟨77, none, 0, [⟨100, [⟨none, none⟩], [⟨0, [1], ⟨50, 0⟩⟩]⟩]⟩

/-- A block at height 1 on top of `cb0`: transaction 200 spends the
coinbase into outputs `(200,0)` (script `[2]`, 30) and `(200,1)`
(script `[1]`, 20); transaction 300 spends `(200,0)` within the block
into `(300,0)` (script `[3]`, 30). -/
def b1 : Rpc.Block :=
  ⟨88, some 77, 1,
   [⟨200, [⟨some 100, some 0⟩], [⟨0, [2], ⟨30, 0⟩⟩, ⟨1, [1], ⟨20, 0⟩⟩]⟩,
    ⟨300, [⟨some 200, some 0⟩], [⟨0, [3], ⟨30, 0⟩⟩]⟩]⟩

/-- A coinbase-only block at height 1: one transaction (txid 400) with one
40-valued output to script `[9]`. -/
def cb1 : Rpc.Block :=
  ⟨99, some 77, 1, [⟨400, [⟨none, none⟩], [⟨0, [9], ⟨40, 0⟩⟩]⟩]⟩

/-- The committed state after `push dbEmpty cb0` (checked by `rfl` below):
one block row, one undo row, the staged coinbase UTXO and its reverse
lookup, and the aggregate for script `[1]`. -/
def s1cb0 : DbState :=
  ⟨[(0, (77, 0))],
   [(0, [Undo.ScriptInfoDelete [1],
         Undo.UtxoDelete ⟨[1], 0, ⟨100, 0⟩⟩,
         Undo.UtxoKeyDelete ⟨100, 0⟩])],
   [(⟨[1], 0, ⟨100, 0⟩⟩, (true, ⟨50, 0⟩))],
   [(⟨100, 0⟩, (0, [1]))],
   [([1], ⟨⟨50, 0⟩, ⟨0, 0⟩, ⟨50, 0⟩, 1⟩)]⟩

/-- A two-block state with empty undo lists, the witness input for the
prune frame theorem. -/
def sPrune : DbState := ⟨[(0, (5, 5)), (1, (6, 5))], [(0, []), (1, [])], [], [], []⟩

/-- The committed state after pushing `cb0` twice (checked by `decide`
below): the duplicate push overwrites the `Utxo`, `UtxoKey` and `Block`
rows in place but doubles the aggregates for script `[1]`. -/
def s2cb0 : DbState :=
  ⟨[(0, (77, 0))],
   [(0, [Undo.ScriptInfoPut ⟨[1], ⟨50, 0⟩, ⟨0, 0⟩, ⟨50, 0⟩, 1⟩,
         Undo.UtxoDelete ⟨[1], 0, ⟨100, 0⟩⟩,
         Undo.UtxoKeyDelete ⟨100, 0⟩])],
   [(⟨[1], 0, ⟨100, 0⟩⟩, (true, ⟨50, 0⟩))],
   [(⟨100, 0⟩, (0, [1]))],
   [([1], ⟨⟨100, 0⟩, ⟨0, 0⟩, ⟨100, 0⟩, 2⟩)]⟩

/-- Does an undo entry record a disk-spend put (`UtxoPut`/`UtxoKeyPut`)
for the outpoint `v`?  These are exactly the undo entries C4 says are
never written for an output created and spent within one block. -/
def vputFor (v : Vout) : Undo → Bool
  | Undo.UtxoPut x => x.key.vout == v
  | Undo.UtxoKeyPut k => k.vout == v
  | _ => false

/-- The flat operation list of block `b1` (checked by `decide` below):
spend the coinbase, create `(200,0)` and `(200,1)`, spend `(200,0)`
within the block, create `(300,0)`. -/
def opsB1 : List BlockOp :=
  [BlockOp.spend ⟨100, 0⟩,
   BlockOp.create ⟨⟨[2], 1, ⟨200, 0⟩⟩, false, ⟨30, 0⟩⟩,
   BlockOp.create ⟨⟨[1], 1, ⟨200, 1⟩⟩, false, ⟨20, 0⟩⟩,
   BlockOp.spend ⟨200, 0⟩,
   BlockOp.create ⟨⟨[3], 1, ⟨300, 0⟩⟩, false, ⟨30, 0⟩⟩]

/-- The committed state after `push s1cb0 b1` (checked by `decide` below).
The within-block spent output `(200,0)` owns no `Utxo` or `UtxoKey` row
and no `UtxoPut`/`UtxoKeyPut` undo entry. -/
def sPush1 : DbState :=
  ⟨[(1, (88, 77)), (0, (77, 0))],
   [(1, [Undo.ScriptInfoPut ⟨[1], ⟨50, 0⟩, ⟨0, 0⟩, ⟨50, 0⟩, 1⟩,
         Undo.UtxoKeyPut ⟨[1], 0, ⟨100, 0⟩⟩,
         Undo.UtxoPut ⟨⟨[1], 0, ⟨100, 0⟩⟩, true, ⟨50, 0⟩⟩,
         Undo.ScriptInfoDelete [2],
         Undo.ScriptInfoDelete [3],
         Undo.UtxoDelete ⟨[3], 1, ⟨300, 0⟩⟩,
         Undo.UtxoKeyDelete ⟨300, 0⟩,
         Undo.UtxoDelete ⟨[1], 1, ⟨200, 1⟩⟩,
         Undo.UtxoKeyDelete ⟨200, 1⟩]),
    (0, [Undo.ScriptInfoDelete [1],
         Undo.UtxoDelete ⟨[1], 0, ⟨100, 0⟩⟩,
         Undo.UtxoKeyDelete ⟨100, 0⟩])],
   [(⟨[1], 1, ⟨200, 1⟩⟩, (false, ⟨20, 0⟩)),
    (⟨[3], 1, ⟨300, 0⟩⟩, (false, ⟨30, 0⟩))],
   [(⟨200, 1⟩, (1, [1])), (⟨300, 0⟩, (1, [3]))],
   [([1], ⟨⟨20, 0⟩, ⟨50, 0⟩, ⟨70, 0⟩, 3⟩),
    ([2], ⟨⟨0, 0⟩, ⟨30, 0⟩, ⟨30, 0⟩, 2⟩),
    ([3], ⟨⟨30, 0⟩, ⟨0, 0⟩, ⟨30, 0⟩, 1⟩)]⟩

/-! # Theorems

First the generic table lemmas, then the decimal value lemmas, then the
per-claim developments. -/

theorem find?_filter_ne {K V : Type} [DecidableEq K] (t : List (K × V)) (k k' : K)
    (h : k' ≠ k) :
    (t.filter fun kv => decide (kv.1 ≠ k)).find? (fun kv => decide (kv.1 = k')) =
      t.find? (fun kv => decide (kv.1 = k')) := by
  induction t with
  | nil => rfl
  | cons hd tl ih =>
    by_cases hk' : hd.1 = k'
    · have hdk : hd.1 ≠ k := by rw [hk']; exact h
      rw [List.filter_cons_of_pos (by simpa using hdk),
        List.find?_cons_of_pos _ (by simpa using hk'),
        List.find?_cons_of_pos _ (by simpa using hk')]
    · by_cases hdk : hd.1 = k
      · rw [List.filter_cons_of_neg (by simpa using hdk),
          List.find?_cons_of_neg _ (by simpa using hk'), ih]
      · rw [List.filter_cons_of_pos (by simpa using hdk),
          List.find?_cons_of_neg _ (by simpa using hk'),
          List.find?_cons_of_neg _ (by simpa using hk'), ih]

theorem tget_tput_same {K V : Type} [DecidableEq K] (t : List (K × V)) (k : K) (v : V) :
    tget (tput t k v) k = some v := by
  simp [tget, tput]

theorem tget_tput_ne {K V : Type} [DecidableEq K] (t : List (K × V)) (k k' : K) (v : V)
    (h : k' ≠ k) : tget (tput t k v) k' = tget t k' := by
  simp only [tget, tput]
  rw [List.find?_cons_of_neg _ (by simpa using Ne.symm h), find?_filter_ne t k k' h]

theorem tget_tdel_same {K V : Type} [DecidableEq K] (t : List (K × V)) (k : K) :
    tget (tdel t k) k = none := by
  simp only [tget, tdel]
  rw [List.find?_eq_none.mpr]
  · rfl
  · intro kv hkv
    have := List.of_mem_filter hkv
    simp at this ⊢
    exact this

theorem tget_tdel_ne {K V : Type} [DecidableEq K] (t : List (K × V)) (k k' : K)
    (h : k' ≠ k) : tget (tdel t k) k' = tget t k' := by
  simp only [tget, tdel]
  rw [find?_filter_ne t k k' h]

theorem tget_mem {K V : Type} [DecidableEq K] {t : List (K × V)} {k : K} {v : V}
    (h : tget t k = some v) : (k, v) ∈ t := by
  simp only [tget, Option.map_eq_some'] at h
  obtain ⟨kv, hfind, hsnd⟩ := h
  have hm := List.mem_of_find?_eq_some hfind
  have hp := List.find?_some hfind
  simp at hp
  obtain ⟨k1, v1⟩ := kv
  simp at hp hsnd
  subst hp
  subst hsnd
  exact hm

theorem tget_eq_none_of_not_mem {K V : Type} [DecidableEq K] {t : List (K × V)} {k : K}
    (h : ∀ kv ∈ t, kv.1 ≠ k) : tget t k = none := by
  simp only [tget, Option.map_eq_none']
  rw [List.find?_eq_none]
  intro kv hkv
  simpa using h kv hkv

/-! ## Checked arithmetic -/

theorem checkedAdd_some {a b m : Nat} (h : checkedAdd a b = some m) : m = a + b := by
  simp only [checkedAdd] at h
  split at h
  · exact (Option.some.inj h).symm
  · exact absurd h (by simp)

theorem checkedMul_some {a b m : Nat} (h : checkedMul a b = some m) : m = a * b := by
  simp only [checkedMul] at h
  split at h
  · exact (Option.some.inj h).symm
  · exact absurd h (by simp)

theorem checkedSub_some {a b m : Nat} (h : checkedSub a b = some m) :
    b ≤ a ∧ m = a - b := by
  simp only [checkedSub] at h
  split at h
  · exact ⟨by assumption, (Option.some.inj h).symm⟩
  · exact absurd h (by simp)

theorem pow10_some {d p : Nat} (h : pow10 d = some p) : p = 10 ^ d := by
  simp only [pow10] at h
  split at h
  · exact (Option.some.inj h).symm
  · exact absurd h (by simp)

/-! ## Decimal value lemmas -/

theorem div_pow_rescale (m s σ : Nat) (h : s ≤ σ) :
    (m : ℚ) / 10 ^ s = (m : ℚ) * 10 ^ (σ - s) / 10 ^ σ := by
  have hp : (10 : ℚ) ^ σ = 10 ^ (σ - s) * 10 ^ s := by
    rw [← pow_add, Nat.sub_add_cancel h]
  rw [hp]
  rw [div_eq_div_iff (by positivity) (by positivity)]
  ring

theorem add_assign_some {a b c : U128Decimal} (h : a.add_assign b = some c) :
    c.valQ = a.valQ + b.valQ ∧ c.scale = max a.scale b.scale := by
  unfold U128Decimal.add_assign at h
  by_cases h1 : a.scale < max a.scale b.scale
  · rw [if_pos h1] at h
    simp only [bind, Option.bind_eq_some, Option.pure_def, Option.some.injEq] at h
    obtain ⟨p, hp, m1, hm1, m2, hm2, hc⟩ := h
    obtain rfl := pow10_some hp
    obtain rfl := checkedMul_some hm1
    obtain rfl := checkedAdd_some hm2
    subst hc
    have hbs : b.scale = max a.scale b.scale := by omega
    refine ⟨?_, rfl⟩
    unfold U128Decimal.valQ
    rw [← hbs]
    push_cast
    rw [div_pow_rescale a.mantissa a.scale b.scale (by omega)]
    ring
  · rw [if_neg h1] at h
    have has : a.scale = max a.scale b.scale := by omega
    by_cases h2 : b.scale < max a.scale b.scale
    · rw [if_pos h2] at h
      simp only [bind, Option.bind_eq_some, Option.pure_def, Option.some.injEq] at h
      obtain ⟨p, hp, m1, hm1, m2, hm2, hc⟩ := h
      obtain rfl := pow10_some hp
      obtain rfl := checkedMul_some hm1
      obtain rfl := checkedAdd_some hm2
      subst hc
      refine ⟨?_, rfl⟩
      unfold U128Decimal.valQ
      rw [← has]
      push_cast
      rw [div_pow_rescale b.mantissa b.scale a.scale (by omega)]
      ring
    · rw [if_neg h2] at h
      have hbs : b.scale = max a.scale b.scale := by omega
      simp only [bind, Option.bind_eq_some, Option.pure_def, Option.some.injEq] at h
      obtain ⟨m, hm, hc⟩ := h
      obtain rfl := checkedAdd_some hm
      subst hc
      refine ⟨?_, rfl⟩
      unfold U128Decimal.valQ
      rw [← has, show b.scale = a.scale by omega]
      push_cast
      ring

theorem sub_assign_some {a b c : U128Decimal} (h : a.sub_assign b = some c) :
    c.valQ = a.valQ - b.valQ ∧ c.scale = max a.scale b.scale := by
  unfold U128Decimal.sub_assign at h
  by_cases h1 : a.scale < max a.scale b.scale
  · rw [if_pos h1] at h
    simp only [bind, Option.bind_eq_some, Option.pure_def, Option.some.injEq] at h
    obtain ⟨p, hp, m1, hm1, m2, hm2, hc⟩ := h
    obtain rfl := pow10_some hp
    obtain rfl := checkedMul_some hm1
    obtain ⟨hle, rfl⟩ := checkedSub_some hm2
    subst hc
    have hbs : b.scale = max a.scale b.scale := by omega
    refine ⟨?_, rfl⟩
    unfold U128Decimal.valQ
    rw [Nat.cast_sub hle]
    rw [← hbs]
    push_cast
    rw [div_pow_rescale a.mantissa a.scale b.scale (by omega)]
    ring
  · rw [if_neg h1] at h
    have has : a.scale = max a.scale b.scale := by omega
    by_cases h2 : b.scale < max a.scale b.scale
    · rw [if_pos h2] at h
      simp only [bind, Option.bind_eq_some, Option.pure_def, Option.some.injEq] at h
      obtain ⟨p, hp, m1, hm1, m2, hm2, hc⟩ := h
      obtain rfl := pow10_some hp
      obtain rfl := checkedMul_some hm1
      obtain ⟨hle, rfl⟩ := checkedSub_some hm2
      subst hc
      refine ⟨?_, rfl⟩
      unfold U128Decimal.valQ
      rw [Nat.cast_sub hle]
      rw [← has]
      push_cast
      rw [div_pow_rescale b.mantissa b.scale a.scale (by omega)]
      ring
    · rw [if_neg h2] at h
      simp only [bind, Option.bind_eq_some, Option.pure_def, Option.some.injEq] at h
      obtain ⟨m, hm, hc⟩ := h
      obtain ⟨hle, rfl⟩ := checkedSub_some hm
      subst hc
      refine ⟨?_, rfl⟩
      unfold U128Decimal.valQ
      rw [Nat.cast_sub hle]
      rw [← has, show b.scale = a.scale by omega]
      push_cast
      ring

theorem valQ_inj_of_scale_eq {x y : U128Decimal} (hs : x.scale = y.scale)
    (hv : x.valQ = y.valQ) : x = y := by
  unfold U128Decimal.valQ at hv
  rw [hs] at hv
  have h10 : ((10 : ℚ) ^ y.scale) ≠ 0 := by positivity
  have hm : (x.mantissa : ℚ) = (y.mantissa : ℚ) := by
    field_simp at hv
    exact_mod_cast hv
  have hm' : x.mantissa = y.mantissa := Nat.cast_injective hm
  cases x
  cases y
  simp_all

/-! ## Claim C6: decimal add/sub round trip -/

/-- Claim C6: for all decimals `a` and `b` such that no intermediate
mantissa computation overflows `u128` (both checked operations succeed)
and `a`'s scale equals the final scale `max(a.scale, b.scale)`, performing
`a += b` and then `-= b` restores `a` exactly — same mantissa, same
scale. -/
theorem decimal_add_sub_roundtrip (a b c d : U128Decimal)
    (hsc : a.scale = max a.scale b.scale)
    (hadd : a.add_assign b = some c)
    (hsub : c.sub_assign b = some d) : d = a := by
  obtain ⟨hcv, hcs⟩ := add_assign_some hadd
  obtain ⟨hdv, hds⟩ := sub_assign_some hsub
  apply valQ_inj_of_scale_eq
  · rw [hds, hcs]
    omega
  · rw [hdv, hcv]
    ring

/-- Witness for C6 at `a = 5·10⁻², b = 3·10⁻¹`. -/
theorem decimal_add_sub_roundtrip_witness :
    (⟨5, 2⟩ : U128Decimal).scale = max (⟨5, 2⟩ : U128Decimal).scale (⟨3, 1⟩ : U128Decimal).scale ∧
    U128Decimal.add_assign ⟨5, 2⟩ ⟨3, 1⟩ = some ⟨35, 2⟩ ∧
    U128Decimal.sub_assign ⟨35, 2⟩ ⟨3, 1⟩ = some ⟨5, 2⟩ ∧
    (⟨5, 2⟩ : U128Decimal) = ⟨5, 2⟩ :=
  ⟨by decide, by decide, by decide,
    decimal_add_sub_roundtrip ⟨5, 2⟩ ⟨3, 1⟩ ⟨35, 2⟩ ⟨5, 2⟩ (by decide) (by decide) (by decide)⟩

/-! ## ScriptInfo aggregate identity (claim C7, local steps) -/

theorem infoIdent_new (sc : Script) :
    infoIdent (ScriptInfo.new sc).balance (ScriptInfo.new sc).total_sent
      (ScriptInfo.new sc).total_received := by
  simp [infoIdent, ScriptInfo.new, U128Decimal.zero, U128Decimal.valQ]

theorem infoIdent_add_unspent {si si' : ScriptInfo} {v : U128Decimal}
    (hid : infoIdent si.balance si.total_sent si.total_received)
    (h : si.add_unspent v = some si') :
    infoIdent si'.balance si'.total_sent si'.total_received := by
  unfold ScriptInfo.add_unspent at h
  simp only [bind, Option.bind_eq_some, Option.pure_def, Option.some.injEq] at h
  obtain ⟨b, hb, r, hr, hsi⟩ := h
  subst hsi
  unfold infoIdent at hid ⊢
  simp only []
  rw [(add_assign_some hb).1, (add_assign_some hr).1]
  linarith

theorem infoIdent_add_spent {si si' : ScriptInfo} {v : U128Decimal}
    (hid : infoIdent si.balance si.total_sent si.total_received)
    (h : si.add_spent v = some si') :
    infoIdent si'.balance si'.total_sent si'.total_received := by
  unfold ScriptInfo.add_spent at h
  simp only [bind, Option.bind_eq_some, Option.pure_def, Option.some.injEq] at h
  obtain ⟨b, hb, t, ht, hsi⟩ := h
  subst hsi
  unfold infoIdent at hid ⊢
  simp only []
  rw [(sub_assign_some hb).1, (add_assign_some ht).1]
  linarith

/-! ## Claim C3: listunspent height bounds -/

/-- Counterexample for C3 as stated: at `tip = 5` with `maxconf = 10`, the
claimed saturating lower bound is `(5 − 10) + 1 = 1`, but the handler
produces `u64::MAX`; with `minconf = 10` the claimed saturating upper
bound is `(5 − 10) + 2 = 2`, but the handler produces `0`. -/
theorem listunspent_bounds_not_saturating :
    listunspentLower 5 (some ⟨none, some 10, none⟩) ≠ some (5 - 10 + 1) ∧
    listunspentUpper 5 (some ⟨some 10, none, none⟩) ≠ some (5 - 10 + 2) := by
  decide

/-- Claim C3 as amended: the listunspent handler scans with lower height
bound `tip − maxconf + 1` when `maxconf ≤ tip` and `u64::MAX` when
`maxconf > tip`; with exclusive upper height bound `tip − minconf + 2`
when `minconf ≤ tip` and `0` when `minconf > tip`; an absent option leaves
the corresponding bound unset. -/
theorem listunspent_bounds_checked (tip : Nat) (q : Option QueryOptions) :
    listunspentLower tip q = (q.bind QueryOptions.maxconf).map
      (fun maxconf => if maxconf ≤ tip then tip - maxconf + 1 else u64MAX) ∧
    listunspentUpper tip q = (q.bind QueryOptions.minconf).map
      (fun minconf => if minconf ≤ tip then tip - minconf + 2 else 0) := by
  constructor
  · unfold listunspentLower
    cases q.bind QueryOptions.maxconf with
    | none => rfl
    | some m =>
      simp only [Option.map_some', Option.some.injEq, checkedSub]
      by_cases hm : m ≤ tip
      · rw [if_pos hm, if_pos hm]
        rfl
      · rw [if_neg hm, if_neg hm]
        rfl
  · unfold listunspentUpper
    cases q.bind QueryOptions.minconf with
    | none => rfl
    | some m =>
      simp only [Option.map_some', Option.some.injEq, checkedSub]
      by_cases hm : m ≤ tip
      · rw [if_pos hm, if_pos hm]
        rfl
      · rw [if_neg hm, if_neg hm]
        rfl

/-! ## Claim C5: Utxo key prefix encoding and extractor -/

theorem beBytes_two (n : Nat) : beBytes 2 n = [n / 256, n % 256] := by
  show n / 256 ^ 1 :: beBytes 1 (n % 256 ^ 1) = _
  show n / 256 ^ 1 :: (n % 256 ^ 1 / 256 ^ 0 :: beBytes 0 (n % 256 ^ 1 % 256 ^ 0)) = _
  show n / 256 ^ 1 :: (n % 256 ^ 1 / 256 ^ 0 :: []) = _
  norm_num

theorem scriptPrefixExtract_small (b : Nat) (tl : List Nat) (h : b ≤ 250) :
    scriptPrefixExtract (b :: tl) = some ((b :: tl).take (b + 1)) := by
  simp only [scriptPrefixExtract]
  rw [if_pos h]

theorem scriptPrefixExtract_two_byte (b1 b2 : Nat) (tl : List Nat) :
    scriptPrefixExtract (251 :: b1 :: b2 :: tl) =
      some ((251 :: b1 :: b2 :: tl).take (3 + (b1 * 256 + b2))) := rfl

theorem scriptPrefixExtract_encodeScript (sc : Script) (rest : List Nat)
    (h : sc.length ≤ 65535) :
    scriptPrefixExtract (encodeScript sc ++ rest) = some (encodeScript sc) := by
  unfold encodeScript serU64
  by_cases h1 : sc.length ≤ 250
  · rw [if_pos h1]
    show scriptPrefixExtract (sc.length :: (sc ++ rest)) = some (sc.length :: sc)
    rw [scriptPrefixExtract_small _ _ h1]
    congr 1
    show ((sc.length :: sc) ++ rest).take (sc.length + 1) = sc.length :: sc
    exact List.take_left' (by simp)
  · rw [if_neg h1, if_pos (by omega : sc.length < 2 ^ 16), beBytes_two]
    show scriptPrefixExtract (251 :: sc.length / 256 :: sc.length % 256 :: (sc ++ rest)) =
      some (251 :: sc.length / 256 :: sc.length % 256 :: sc)
    rw [scriptPrefixExtract_two_byte]
    congr 1
    have hlen : sc.length / 256 * 256 + sc.length % 256 = sc.length := by omega
    rw [hlen]
    show ((251 :: sc.length / 256 :: sc.length % 256 :: sc) ++ rest).take (3 + sc.length) =
      251 :: sc.length / 256 :: sc.length % 256 :: sc
    exact List.take_left' (by simp; omega)

/-- Claim C5: every serialized `Utxo` key opens with the self-delimiting
script encoding — one length byte for lengths `0..=250`, or the byte `251`
followed by the two-byte big-endian length for lengths `251..=65535` — and
the `Utxo` column family's prefix extractor returns exactly that
length-prefixed script portion of the key. -/
theorem utxo_key_script_prefix_encoding (k : UtxoKey) (h : k.script.length ≤ 65535) :
    (k.script.length ≤ 250 → encodeScript k.script = k.script.length :: k.script) ∧
    (250 < k.script.length →
      encodeScript k.script =
        251 :: k.script.length / 256 :: k.script.length % 256 :: k.script) ∧
    utxoKeyBytes k = encodeScript k.script ++
      (serU64 k.height ++ (beBytes 32 k.vout.txid ++ serU64 k.vout.n)) ∧
    scriptPrefixExtract (utxoKeyBytes k) = some (encodeScript k.script) := by
  refine ⟨?_, ?_, rfl, ?_⟩
  · intro h1
    unfold encodeScript serU64
    rw [if_pos h1]
    rfl
  · intro h1
    unfold encodeScript serU64
    rw [if_neg (by omega), if_pos (by omega : k.script.length < 2 ^ 16), beBytes_two]
    rfl
  · exact scriptPrefixExtract_encodeScript k.script _ h

/-- Witness for C5 at a concrete 2-byte script. -/
theorem utxo_key_script_prefix_encoding_witness :
    (⟨[7, 8], 3, ⟨100, 0⟩⟩ : UtxoKey).script.length ≤ 65535 ∧
    scriptPrefixExtract (utxoKeyBytes ⟨[7, 8], 3, ⟨100, 0⟩⟩) =
      some (encodeScript [7, 8]) :=
  ⟨by decide, (utxo_key_script_prefix_encoding ⟨[7, 8], 3, ⟨100, 0⟩⟩ (by decide)).2.2.2⟩

/-! ## Claim C10: listunspent panics on an empty index -/

/-- Claim C10: every call to the `listunspent` handler while the `Block`
table is empty panics on the `expect` of the tip lookup (modelled `none`)
instead of returning a result or error object; `getaddressinfo` on the
empty store does not panic and returns the all-zero aggregate. -/
theorem listunspent_empty_panics :
    (∀ s script q mc, s.block = [] → listunspent s script q mc = none) ∧
    (∀ script, getaddressinfo dbEmpty script =
      ⟨U128Decimal.zero, U128Decimal.zero, U128Decimal.zero, 0⟩) := by
  constructor
  · intro s script q mc hb
    unfold listunspent peek
    rw [hb]
    rfl
  · intro script
    rfl

/-- Witness for C10 on the freshly opened store. -/
theorem listunspent_empty_panics_witness :
    listunspent dbEmpty [1] none 100 = none ∧
    getaddressinfo dbEmpty [1] =
      ⟨U128Decimal.zero, U128Decimal.zero, U128Decimal.zero, 0⟩ :=
  ⟨listunspent_empty_panics.1 dbEmpty [1] none 100 rfl,
    listunspent_empty_panics.2 [1]⟩

/-! ## Claims C1 and C2: `pop` never commits its batch -/

/-- Claim C1 exhibit: `Db::pop` builds its delete/replay batch but never
writes it.  Pushing the coinbase block `cb0` onto the empty store and
popping returns the tip block, yet the committed state still equals the
post-push state (second component `true`) and differs from the pre-push
state (third component `false`) — `pop` after `push` does not restore the
five tables. -/
theorem push_pop_leaves_state_unchanged :
    ((push dbEmpty cb0).bind fun s1 => (pop s1).map fun r =>
      (r.1, decide (r.2 = s1), decide (r.2 = dbEmpty))) =
      some (⟨0, 77, 0⟩, true, false) := by
  decide

/-- Claim C2 exhibit: after pushing blocks at heights 0 and 1, `pop`
returns the reverted block of height 1, but the committed tip is still
height 1 (not `popped.height − 1 = 0`), and both the `Block` row and the
`BlockUndo` row of height 1 survive — nothing was deleted, no batch was
committed. -/
theorem pop_commits_nothing :
    (((push dbEmpty cb0).bind fun s => push s cb1).bind fun s2 =>
      (pop s2).map fun r =>
        (r.1.height, (peek r.2).map Block.height,
          decide (tget r.2.block 1 = none), decide (tget r.2.blockUndo 1 = none))) =
      some (1, some 1, false, false) := by
  decide

/-! ## Claim C8: prune range and frame -/

theorem lt_of_div_lt_div {m n B : Nat} (h : m / B < n / B) : m < n := by
  by_contra hc
  push_neg at hc
  have hd : n / B ≤ m / B := Nat.div_le_div_right hc
  omega

theorem lexLtB_head_lt {a b : Nat} (as bs : List Nat) (h : a < b) :
    lexLtB (a :: as) (b :: bs) = true := by
  simp [lexLtB, h]

theorem lexLtB_head_gt {a b : Nat} (as bs : List Nat) (h : b < a) :
    lexLtB (a :: as) (b :: bs) = false := by
  simp [lexLtB]
  omega

theorem lexLtB_head_eq (a : Nat) (as bs : List Nat) :
    lexLtB (a :: as) (a :: bs) = lexLtB as bs := by
  simp [lexLtB]

theorem beBytes_lt (k : Nat) : ∀ m n, m < 256 ^ k → n < 256 ^ k →
    lexLtB (beBytes k m) (beBytes k n) = decide (m < n) := by
  induction k with
  | zero =>
    intro m n hm hn
    simp only [pow_zero, Nat.lt_one_iff] at hm hn
    subst hm
    subst hn
    rfl
  | succ k ih =>
    intro m n hm hn
    have hB : 0 < 256 ^ k := pow_pos (by norm_num) k
    show lexLtB (m / 256 ^ k :: beBytes k (m % 256 ^ k))
      (n / 256 ^ k :: beBytes k (n % 256 ^ k)) = _
    rcases lt_trichotomy (m / 256 ^ k) (n / 256 ^ k) with hd | hd | hd
    · rw [lexLtB_head_lt _ _ hd]
      exact (decide_eq_true (lt_of_div_lt_div hd)).symm
    · rw [hd, lexLtB_head_eq, ih _ _ (Nat.mod_lt _ hB) (Nat.mod_lt _ hB)]
      have e1 := Nat.div_add_mod m (256 ^ k)
      have e2 := Nat.div_add_mod n (256 ^ k)
      rw [hd] at e1
      rw [decide_eq_decide]
      generalize hq : 256 ^ k * (n / 256 ^ k) = Q at e1 e2
      omega
    · rw [lexLtB_head_gt _ _ hd]
      have : ¬ m < n := fun hc => absurd (lt_of_div_lt_div hd) (by omega)
      exact (decide_eq_false this).symm

theorem serU64_lt_iff (m n : Nat) (hm64 : m < 2 ^ 64) (hn64 : n < 2 ^ 64) :
    lexLtB (serU64 m) (serU64 n) = decide (m < n) := by
  have e16 : (2 : Nat) ^ 16 = 65536 := by norm_num
  have e32 : (2 : Nat) ^ 32 = 4294967296 := by norm_num
  have e64 : (2 : Nat) ^ 64 = 18446744073709551616 := by norm_num
  rw [e64] at hm64 hn64
  have b2 : (256 : Nat) ^ 2 = 65536 := by norm_num
  have b4 : (256 : Nat) ^ 4 = 4294967296 := by norm_num
  have b8 : (256 : Nat) ^ 8 = 18446744073709551616 := by norm_num
  unfold serU64
  rw [e16, e32]
  rcases show m ≤ 250 ∨ (250 < m ∧ m < 65536) ∨ (65536 ≤ m ∧ m < 4294967296) ∨
      4294967296 ≤ m by omega with hm | hm | hm | hm <;>
    rcases show n ≤ 250 ∨ (250 < n ∧ n < 65536) ∨ (65536 ≤ n ∧ n < 4294967296) ∨
        4294967296 ≤ n by omega with hn | hn | hn | hn
  · rw [if_pos hm, if_pos hn]
    simp [lexLtB]
  · rw [if_pos hm, if_neg (by omega), if_pos (by omega)]
    rw [lexLtB_head_lt _ _ (by omega)]
    exact (decide_eq_true (by omega)).symm
  · rw [if_pos hm, if_neg (by omega), if_neg (by omega), if_pos (by omega)]
    rw [lexLtB_head_lt _ _ (by omega)]
    exact (decide_eq_true (by omega)).symm
  · rw [if_pos hm, if_neg (by omega), if_neg (by omega), if_neg (by omega)]
    rw [lexLtB_head_lt _ _ (by omega)]
    exact (decide_eq_true (by omega)).symm
  · rw [if_neg (by omega), if_pos (by omega), if_pos hn]
    rw [lexLtB_head_gt _ _ (by omega)]
    exact (decide_eq_false (by omega)).symm
  · rw [if_neg (by omega), if_pos (by omega), if_neg (by omega), if_pos (by omega)]
    rw [lexLtB_head_eq, beBytes_lt 2 m n (by omega) (by omega)]
  · rw [if_neg (by omega), if_pos (by omega), if_neg (by omega), if_neg (by omega),
      if_pos (by omega)]
    rw [lexLtB_head_lt _ _ (by omega)]
    exact (decide_eq_true (by omega)).symm
  · rw [if_neg (by omega), if_pos (by omega), if_neg (by omega), if_neg (by omega),
      if_neg (by omega)]
    rw [lexLtB_head_lt _ _ (by omega)]
    exact (decide_eq_true (by omega)).symm
  · rw [if_neg (by omega), if_neg (by omega), if_pos (by omega), if_pos hn]
    rw [lexLtB_head_gt _ _ (by omega)]
    exact (decide_eq_false (by omega)).symm
  · rw [if_neg (by omega), if_neg (by omega), if_pos (by omega), if_neg (by omega),
      if_pos (by omega)]
    rw [lexLtB_head_gt _ _ (by omega)]
    exact (decide_eq_false (by omega)).symm
  · rw [if_neg (by omega), if_neg (by omega), if_pos (by omega), if_neg (by omega),
      if_neg (by omega), if_pos (by omega)]
    rw [lexLtB_head_eq, beBytes_lt 4 m n (by omega) (by omega)]
  · rw [if_neg (by omega), if_neg (by omega), if_pos (by omega), if_neg (by omega),
      if_neg (by omega), if_neg (by omega)]
    rw [lexLtB_head_lt _ _ (by omega)]
    exact (decide_eq_true (by omega)).symm
  · rw [if_neg (by omega), if_neg (by omega), if_neg (by omega), if_pos hn]
    rw [lexLtB_head_gt _ _ (by omega)]
    exact (decide_eq_false (by omega)).symm
  · rw [if_neg (by omega), if_neg (by omega), if_neg (by omega), if_neg (by omega),
      if_pos (by omega)]
    rw [lexLtB_head_gt _ _ (by omega)]
    exact (decide_eq_false (by omega)).symm
  · rw [if_neg (by omega), if_neg (by omega), if_neg (by omega), if_neg (by omega),
      if_neg (by omega), if_pos (by omega)]
    rw [lexLtB_head_gt _ _ (by omega)]
    exact (decide_eq_false (by omega)).symm
  · rw [if_neg (by omega), if_neg (by omega), if_neg (by omega), if_neg (by omega),
      if_neg (by omega), if_neg (by omega)]
    rw [lexLtB_head_eq, beBytes_lt 8 m n (by omega) (by omega)]

theorem lexLtB_ser_zero (k : Nat) : lexLtB (serU64 k) (serU64 0) = false := by
  show lexLtB (serU64 k) [0] = false
  unfold serU64
  split_ifs <;> simp [lexLtB]

/-- Claim C8: for every height `h`, `prune_until h` deletes exactly the
`Block` and `BlockUndo` rows with height strictly less than `h` and leaves
the `Utxo`, `UtxoKey` and `ScriptInfo` tables identical.  The height
bounds are `u64` ranges; the `BlockUndo` deletions ride on the `Block`
scan, so the rows are paired as the schema invariant (spec §3.1)
guarantees. -/
theorem prune_until_frame (s : DbState) (h : Nat) (hh : h < 2 ^ 64)
    (hblocks : ∀ kv ∈ s.block, kv.1 < 2 ^ 64)
    (hundo : ∀ kv ∈ s.blockUndo, kv.1 < 2 ^ 64 ∧ (tget s.block kv.1).isSome) :
    (prune_until s h).block = s.block.filter (fun kv => decide (h ≤ kv.1)) ∧
    (prune_until s h).blockUndo = s.blockUndo.filter (fun kv => decide (h ≤ kv.1)) ∧
    (prune_until s h).utxo = s.utxo ∧
    (prune_until s h).utxoKey = s.utxoKey ∧
    (prune_until s h).scriptInfo = s.scriptInfo := by
  refine ⟨?_, ?_, rfl, rfl, rfl⟩
  · show s.block.filter _ = s.block.filter _
    apply List.filter_congr
    intro kv hkv
    simp only []
    rw [lexLtB_ser_zero, serU64_lt_iff kv.1 h (hblocks kv hkv) hh]
    by_cases hlt : kv.1 < h
    · rw [decide_eq_true hlt, decide_eq_false (by omega : ¬ h ≤ kv.1)]
      rfl
    · rw [decide_eq_false hlt, decide_eq_true (by omega : h ≤ kv.1)]
      rfl
  · show s.blockUndo.filter _ = s.blockUndo.filter _
    apply List.filter_congr
    intro kv hkv
    simp only []
    rw [lexLtB_ser_zero, serU64_lt_iff kv.1 h (hundo kv hkv).1 hh, (hundo kv hkv).2]
    by_cases hlt : kv.1 < h
    · rw [decide_eq_true hlt, decide_eq_false (by omega : ¬ h ≤ kv.1)]
      rfl
    · rw [decide_eq_false hlt, decide_eq_true (by omega : h ≤ kv.1)]
      rfl

/-- Witness for C8 on a two-block state at `h = 1`. -/
theorem prune_until_frame_witness :
    (1 : Nat) < 2 ^ 64 ∧ (∀ kv ∈ sPrune.block, kv.1 < 2 ^ 64) ∧
    (prune_until sPrune 1).utxo = sPrune.utxo :=
  ⟨by decide, by decide,
    (prune_until_frame sPrune 1 (by decide) (by decide) (by decide)).2.2.1⟩

/-! ## Flattening: the nested vin/vout loops equal the flat op list -/

theorem processOps_append (s : DbState) (l1 l2 : List BlockOp) : ∀ st,
    processOps s st (l1 ++ l2) =
      (processOps s st l1).bind fun st' => processOps s st' l2 := by
  induction l1 with
  | nil => intro st; rfl
  | cons op rest ih =>
    intro st
    show (applyOp s st op).bind (fun st' => processOps s st' (rest ++ l2)) =
      ((applyOp s st op).bind fun st' => processOps s st' rest).bind fun st' =>
        processOps s st' l2
    cases ha : applyOp s st op with
    | none => rfl
    | some st' => exact ih st'

theorem processVin_spend (s : DbState) (st : Staging) (cb : Bool) (t n : Nat) :
    processVin s st ⟨some t, some n⟩ cb =
      (applyOp s st (BlockOp.spend ⟨t, n⟩)).map fun st' => (st', cb) := by
  simp only [processVin, applyOp, bind, Option.some_bind]
  cases htg : tget st.utxos ⟨t, n⟩ with
  | some u =>
    simp only []
    cases update_info s { st with utxos := tdel st.utxos ⟨t, n⟩ } u.key.script
        (fun i => i.add_spent u.value) with
    | none => rfl
    | some st' => rfl
  | none =>
    cases get_utxo s ⟨t, n⟩ with
    | none => rfl
    | some u =>
      simp only [Option.some_bind]
      cases update_info s st u.key.script (fun i => i.add_spent u.value) with
      | none => rfl
      | some st' => rfl

theorem processVins_eq (s : DbState) (vins : List Rpc.Vin) : ∀ st cb,
    processVins s st cb vins =
      (txSpends vins).bind fun sp =>
        (processOps s st (sp.map BlockOp.spend)).map fun st' =>
          (st', cb || vins.any fun vin => vin.txid.isNone) := by
  induction vins with
  | nil =>
    intro st cb
    show some (st, cb) = some (st, cb || false)
    rw [Bool.or_false]
  | cons vin rest ih =>
    intro st cb
    obtain ⟨otx, ovt⟩ := vin
    cases otx with
    | none =>
      show (processVin s st ⟨none, ovt⟩ cb).bind (fun p : Staging × Bool => processVins s p.1 p.2 rest) = _
      have hpv : processVin s st ⟨none, ovt⟩ cb = some (st, true) := rfl
      rw [hpv, Option.some_bind]
      rw [ih st true]
      have hts : txSpends (⟨none, ovt⟩ :: rest) = txSpends rest := by
        show (vinSpends ⟨none, ovt⟩).bind
          (fun s1 => (txSpends rest).bind fun s2 => some (s1 ++ s2)) = _
        show (txSpends rest).bind (fun s2 => some ([] ++ s2)) = _
        simp
      rw [hts]
      cases txSpends rest with
      | none => rfl
      | some sp =>
        rw [Option.some_bind, Option.some_bind]
        cases processOps s st (sp.map BlockOp.spend) with
        | none => rfl
        | some st' =>
          show some _ = some _
          simp [List.any_cons]
    | some t =>
      cases ovt with
      | none =>
        show (processVin s st ⟨some t, none⟩ cb).bind (fun p : Staging × Bool => processVins s p.1 p.2 rest) = _
        have hpv : processVin s st ⟨some t, none⟩ cb = none := rfl
        have hts : txSpends (⟨some t, none⟩ :: rest) = none := rfl
        rw [hpv, hts]
        rfl
      | some n =>
        show (processVin s st ⟨some t, some n⟩ cb).bind (fun p : Staging × Bool => processVins s p.1 p.2 rest) = _
        rw [processVin_spend]
        have hts : txSpends (⟨some t, some n⟩ :: rest) =
            (txSpends rest).map fun sp => ⟨t, n⟩ :: sp := by
          show (vinSpends ⟨some t, some n⟩).bind
            (fun s1 => (txSpends rest).bind fun s2 => some (s1 ++ s2)) = _
          show (txSpends rest).bind (fun s2 => some ([⟨t, n⟩] ++ s2)) = _
          cases txSpends rest <;> rfl
        rw [hts]
        cases ha : applyOp s st (BlockOp.spend ⟨t, n⟩) with
        | none =>
          show (Option.map _ none).bind (fun p : Staging × Bool => processVins s p.1 p.2 rest) = _
          rw [Option.map_none', Option.none_bind]
          cases hts2 : txSpends rest with
          | none => rfl
          | some sp =>
            rw [Option.map_some', Option.some_bind]
            have hpo : processOps s st (List.map BlockOp.spend (⟨t, n⟩ :: sp)) = none := by
              show (applyOp s st (BlockOp.spend ⟨t, n⟩)).bind
                (fun st' => processOps s st' (sp.map BlockOp.spend)) = none
              rw [ha]
              rfl
            rw [hpo]
            rfl
        | some st1 =>
          show (Option.map _ (some st1)).bind (fun p : Staging × Bool => processVins s p.1 p.2 rest) = _
          rw [Option.map_some', Option.some_bind]
          show processVins s st1 cb rest = _
          rw [ih st1 cb]
          cases hts2 : txSpends rest with
          | none => rfl
          | some sp =>
            rw [Option.map_some', Option.some_bind, Option.some_bind]
            have hpo : processOps s st (List.map BlockOp.spend (⟨t, n⟩ :: sp)) =
                processOps s st1 (sp.map BlockOp.spend) := by
              show (applyOp s st (BlockOp.spend ⟨t, n⟩)).bind
                (fun st' => processOps s st' (sp.map BlockOp.spend)) = _
              rw [ha]
              rfl
            rw [hpo]
            cases processOps s st1 (sp.map BlockOp.spend) with
            | none => rfl
            | some st2 =>
              show some _ = some _
              simp [List.any_cons]

theorem processVout_create (s : DbState) (height txid : Nat) (cb : Bool)
    (st : Staging) (tv : Rpc.Vout) :
    processVout s height txid cb st tv =
      applyOp s st (BlockOp.create
        ⟨⟨tv.script_pub_key, height, ⟨txid, tv.n⟩⟩, cb, tv.value⟩) := rfl

theorem processVouts_eq (s : DbState) (height txid : Nat) (cb : Bool)
    (tvs : List Rpc.Vout) : ∀ st,
    processVouts s height txid cb st tvs =
      processOps s st (tvs.map fun tv => BlockOp.create
        ⟨⟨tv.script_pub_key, height, ⟨txid, tv.n⟩⟩, cb, tv.value⟩) := by
  induction tvs with
  | nil => intro st; rfl
  | cons tv rest ih =>
    intro st
    show (processVout s height txid cb st tv).bind
      (fun st2 => processVouts s height txid cb st2 rest) =
      (applyOp s st (BlockOp.create
        ⟨⟨tv.script_pub_key, height, ⟨txid, tv.n⟩⟩, cb, tv.value⟩)).bind fun st2 =>
          processOps s st2 (rest.map fun tv => BlockOp.create
            ⟨⟨tv.script_pub_key, height, ⟨txid, tv.n⟩⟩, cb, tv.value⟩)
    rw [processVout_create]
    cases applyOp s st (BlockOp.create
        ⟨⟨tv.script_pub_key, height, ⟨txid, tv.n⟩⟩, cb, tv.value⟩) with
    | none => rfl
    | some st2 => exact ih st2

theorem processTx_eq (s : DbState) (height : Nat) (st : Staging) (tx : Rpc.Tx) :
    processTx s height st tx = (txSpends tx.vin).bind fun sp =>
      processOps s st (sp.map BlockOp.spend ++ createOps height tx) := by
  show (processVins s st false tx.vin).bind
    (fun p : Staging × Bool => processVouts s height tx.txid p.2 p.1 tx.vout) = _
  rw [processVins_eq]
  cases hts : txSpends tx.vin with
  | none => rfl
  | some sp =>
    rw [Option.some_bind, Option.some_bind, processOps_append]
    cases hpo : processOps s st (sp.map BlockOp.spend) with
    | none => rfl
    | some st1 =>
      rw [Option.map_some', Option.some_bind, Option.some_bind]
      show processVouts s height tx.txid
        (false || tx.vin.any fun vin => vin.txid.isNone) st1 tx.vout = _
      rw [Bool.false_or, processVouts_eq]
      rfl

theorem processTxs_eq (s : DbState) (height : Nat) (txs : List Rpc.Tx) : ∀ st,
    processTxs s height st txs =
      (blockOps height txs).bind fun ops => processOps s st ops := by
  induction txs with
  | nil => intro st; rfl
  | cons tx rest ih =>
    intro st
    show (processTx s height st tx).bind (fun st1 => processTxs s height st1 rest) =
      ((txSpends tx.vin).bind fun sp => (blockOps height rest).bind fun others =>
        some (sp.map BlockOp.spend ++ createOps height tx ++ others)).bind
          fun ops => processOps s st ops
    rw [processTx_eq]
    cases hts : txSpends tx.vin with
    | none => rfl
    | some sp =>
      rw [Option.some_bind, Option.some_bind]
      cases hbo : blockOps height rest with
      | none =>
        rw [Option.none_bind]
        cases hpo : processOps s st (sp.map BlockOp.spend ++ createOps height tx) with
        | none => rfl
        | some st1 =>
          rw [Option.some_bind]
          show processTxs s height st1 rest = none
          rw [ih st1, hbo]
          rfl
      | some others =>
        rw [Option.some_bind, Option.some_bind]
        conv_rhs => rw [processOps_append]
        cases hpo : processOps s st (sp.map BlockOp.spend ++ createOps height tx) with
        | none => rfl
        | some st1 =>
          rw [Option.some_bind, Option.some_bind]
          show processTxs s height st1 rest = _
          rw [ih st1, hbo]
          rfl

theorem processBlock_eq (s : DbState) (b : Rpc.Block) :
    processBlock s b =
      (blockOps b.height b.tx).bind fun ops => processOps s ⟨[], [], []⟩ ops :=
  processTxs_eq s b.height b.tx ⟨[], [], []⟩

/-! ## Characterizations of the staging primitives -/

theorem add_spent_char {si si' : ScriptInfo} {v : U128Decimal}
    (h : si.add_spent v = some si') :
    si'.script = si.script ∧ si'.balance.valQ = si.balance.valQ - v.valQ ∧
    si'.total_sent.valQ = si.total_sent.valQ + v.valQ ∧
    si'.total_received = si.total_received ∧ si'.tx_count = si.tx_count + 1 := by
  unfold ScriptInfo.add_spent at h
  simp only [bind, Option.bind_eq_some, Option.pure_def, Option.some.injEq] at h
  obtain ⟨b, hb, t, ht, hsi⟩ := h
  subst hsi
  exact ⟨rfl, (sub_assign_some hb).1, (add_assign_some ht).1, rfl, rfl⟩

theorem add_unspent_char {si si' : ScriptInfo} {v : U128Decimal}
    (h : si.add_unspent v = some si') :
    si'.script = si.script ∧ si'.balance.valQ = si.balance.valQ + v.valQ ∧
    si'.total_received.valQ = si.total_received.valQ + v.valQ ∧
    si'.total_sent = si.total_sent ∧ si'.tx_count = si.tx_count + 1 := by
  unfold ScriptInfo.add_unspent at h
  simp only [bind, Option.bind_eq_some, Option.pure_def, Option.some.injEq] at h
  obtain ⟨b, hb, r, hr, hsi⟩ := h
  subst hsi
  exact ⟨rfl, (add_assign_some hb).1, (add_assign_some hr).1, rfl, rfl⟩

theorem get_utxo_char {s : DbState} {v : Vout} {u : Utxo}
    (h : get_utxo s v = some u) :
    u.key.vout = v ∧ tget s.utxo u.key = some (u.coinbase, u.value) := by
  unfold get_utxo at h
  simp only [bind, Option.bind_eq_some, Option.pure_def, Option.some.injEq] at h
  obtain ⟨⟨h0, sc0⟩, hk, ⟨cb, val⟩, hu, he⟩ := h
  subst he
  exact ⟨rfl, hu⟩

/-- What one successful `update_info` call does: the staged UTXOs are
untouched, the spent record is untouched, and the staged aggregate map
gains/replaces the script's entry with `f` applied to its seed. -/
theorem update_info_char {s : DbState} {st : Staging} {sc : Script}
    {f : ScriptInfo → Option ScriptInfo} {st' : Staging}
    (h : update_info s st sc f = some st') :
    ∃ info0 info', f info0 = some info' ∧
      st'.infos = tput st.infos sc info' ∧
      st'.utxos = st.utxos ∧
      spentOf st'.undos = spentOf st.undos ∧
      (tget st.infos sc = some info0 ∨
        (tget st.infos sc = none ∧
          ((tget s.scriptInfo sc = none ∧ info0 = ScriptInfo.new sc) ∨
            (∃ dv, tget s.scriptInfo sc = some dv ∧
              info0 = ScriptInfo.assemble sc dv)))) := by
  unfold update_info at h
  cases hst : tget st.infos sc with
  | some info =>
    rw [hst] at h
    simp only [bind, Option.bind_eq_some, Option.pure_def, Option.some.injEq] at h
    obtain ⟨info', hf, hst'⟩ := h
    subst hst'
    exact ⟨info, info', hf, rfl, rfl, rfl, Or.inl rfl⟩
  | none =>
    rw [hst] at h
    cases hdisk : tget s.scriptInfo sc with
    | none =>
      rw [hdisk] at h
      simp only [bind, Option.bind_eq_some, Option.pure_def, Option.some.injEq] at h
      obtain ⟨info', hf, hst'⟩ := h
      subst hst'
      refine ⟨ScriptInfo.new sc, info', hf, rfl, rfl, ?_,
        Or.inr ⟨rfl, Or.inl ⟨rfl, rfl⟩⟩⟩
      show spentOf (st.undos ++ [Undo.ScriptInfoDelete sc]) = spentOf st.undos
      unfold spentOf
      rw [List.filterMap_append]
      simp
    | some dv =>
      rw [hdisk] at h
      simp only [bind, Option.bind_eq_some, Option.pure_def, Option.some.injEq] at h
      obtain ⟨info', hf, hst'⟩ := h
      subst hst'
      refine ⟨ScriptInfo.assemble sc dv, info', hf, rfl, rfl, ?_,
        Or.inr ⟨rfl, Or.inr ⟨dv, rfl, rfl⟩⟩⟩
      show spentOf (st.undos ++ [Undo.ScriptInfoPut (ScriptInfo.assemble sc dv)]) =
        spentOf st.undos
      unfold spentOf
      rw [List.filterMap_append]
      simp

/-! ## Table and sum helper lemmas -/

theorem tget_none_iff {K V : Type} [DecidableEq K] {t : List (K × V)} {k : K} :
    tget t k = none ↔ ∀ kv ∈ t, kv.1 ≠ k := by
  constructor
  · intro h kv hkv
    simp only [tget, Option.map_eq_none'] at h
    rw [List.find?_eq_none] at h
    simpa using h kv hkv
  · exact tget_eq_none_of_not_mem

theorem tdel_eq_self {K V : Type} [DecidableEq K] {t : List (K × V)} {k : K}
    (h : ∀ kv ∈ t, kv.1 ≠ k) : tdel t k = t := by
  unfold tdel
  rw [List.filter_eq_self]
  intro kv hkv
  simpa using h kv hkv

theorem tput_eq_cons {K V : Type} [DecidableEq K] {t : List (K × V)} {k : K} (v : V)
    (h : ∀ kv ∈ t, kv.1 ≠ k) : tput t k v = (k, v) :: t := by
  unfold tput
  rw [show t.filter (fun kv => decide (kv.1 ≠ k)) = tdel t k from rfl, tdel_eq_self h]

theorem tdel_sublist {K V : Type} [DecidableEq K] (t : List (K × V)) (k : K) :
    (tdel t k).Sublist t := List.filter_sublist t

theorem nodup_keys_tdel {K V : Type} [DecidableEq K] {t : List (K × V)} (k : K)
    (h : (t.map Prod.fst).Nodup) : ((tdel t k).map Prod.fst).Nodup :=
  ((tdel_sublist t k).map Prod.fst).nodup h

theorem nodup_keys_tput {K V : Type} [DecidableEq K] {t : List (K × V)} (k : K) (v : V)
    (h : (t.map Prod.fst).Nodup) : ((tput t k v).map Prod.fst).Nodup := by
  unfold tput
  rw [List.map_cons]
  refine List.Nodup.cons ?_ (((List.filter_sublist t).map Prod.fst).nodup h)
  intro hk
  simp only [List.mem_map] at hk
  obtain ⟨kv, hkv, hfst⟩ := hk
  have := List.of_mem_filter hkv
  simp at this
  exact this hfst

theorem mem_tput {K V : Type} [DecidableEq K] {t : List (K × V)} {k : K} {v : V}
    {kv : K × V} (h : kv ∈ tput t k v) : kv = (k, v) ∨ kv ∈ t := by
  unfold tput at h
  rcases List.mem_cons.mp h with h1 | h1
  · exact Or.inl h1
  · exact Or.inr (List.mem_of_mem_filter h1)

theorem mem_tdel {K V : Type} [DecidableEq K] {t : List (K × V)} {k : K}
    {kv : K × V} (h : kv ∈ tdel t k) : kv ∈ t := List.mem_of_mem_filter h

theorem stagedSum_cons (kv : Vout × Utxo) (l : List (Vout × Utxo)) (sc : Script) :
    stagedSum (kv :: l) sc =
      (if kv.2.key.script = sc then kv.2.value.valQ else 0) + stagedSum l sc := by
  unfold stagedSum
  by_cases hk : kv.2.key.script = sc
  · rw [List.filter_cons_of_pos (by simpa using hk), if_pos hk]
    simp
  · rw [List.filter_cons_of_neg (by simpa using hk), if_neg hk]
    simp

theorem stagedSum_zero {l : List (Vout × Utxo)} {sc : Script}
    (h : ∀ kv ∈ l, kv.2.key.script ≠ sc) : stagedSum l sc = 0 := by
  unfold stagedSum
  rw [List.filter_eq_nil_iff.mpr]
  · rfl
  · intro kv hkv
    simpa using h kv hkv

theorem stagedSum_tdel {l : List (Vout × Utxo)} {v : Vout} {u : Utxo} {sc : Script}
    (hnd : (l.map Prod.fst).Nodup) (hget : tget l v = some u) :
    stagedSum (tdel l v) sc =
      stagedSum l sc - (if u.key.script = sc then u.value.valQ else 0) := by
  induction l with
  | nil => simp [tget] at hget
  | cons hd tl ih =>
    rw [List.map_cons, List.nodup_cons] at hnd
    by_cases hhd : hd.1 = v
    · have hu : hd.2 = u := by
        simp only [tget] at hget
        rw [List.find?_cons_of_pos _ (by simpa using hhd)] at hget
        simpa using hget
      have htl : tdel (hd :: tl) v = tl := by
        unfold tdel
        rw [List.filter_cons_of_neg (by simpa using hhd)]
        rw [show tl.filter (fun kv => decide (kv.1 ≠ v)) = tdel tl v from rfl]
        refine tdel_eq_self ?_
        intro kv hkv hk
        exact hnd.1 (by rw [hhd, ← hk]; exact List.mem_map_of_mem Prod.fst hkv)
      rw [htl, stagedSum_cons, hu]
      ring
    · have hget2 : tget tl v = some u := by
        simp only [tget] at hget ⊢
        rwa [List.find?_cons_of_neg _ (by simpa using hhd)] at hget
      have htl : tdel (hd :: tl) v = hd :: tdel tl v := by
        unfold tdel
        rw [List.filter_cons_of_pos (by simpa using hhd)]
      rw [htl, stagedSum_cons, stagedSum_cons, ih hnd.2 hget2]
      ring

theorem utxoSum_cons (kv : UtxoKey × (Bool × U128Decimal))
    (t : List (UtxoKey × (Bool × U128Decimal))) (sc : Script) :
    utxoSum (kv :: t) sc =
      (if kv.1.script = sc then kv.2.2.valQ else 0) + utxoSum t sc := by
  unfold utxoSum
  by_cases hk : kv.1.script = sc
  · rw [List.filter_cons_of_pos (by simpa using hk), if_pos hk]
    simp
  · rw [List.filter_cons_of_neg (by simpa using hk), if_neg hk]
    simp

theorem utxoSum_zero {t : List (UtxoKey × (Bool × U128Decimal))} {sc : Script}
    (h : ∀ kv ∈ t, kv.1.script ≠ sc) : utxoSum t sc = 0 := by
  unfold utxoSum
  rw [List.filter_eq_nil_iff.mpr]
  · rfl
  · intro kv hkv
    simpa using h kv hkv

theorem utxoSum_tput_fresh {t : List (UtxoKey × (Bool × U128Decimal))} {k : UtxoKey}
    (v : Bool × U128Decimal) (sc : Script) (hfresh : ∀ kv ∈ t, kv.1 ≠ k) :
    utxoSum (tput t k v) sc =
      (if k.script = sc then v.2.valQ else 0) + utxoSum t sc := by
  rw [tput_eq_cons v hfresh, utxoSum_cons]

theorem utxoSum_tdel {t : List (UtxoKey × (Bool × U128Decimal))} {k : UtxoKey}
    {v : Bool × U128Decimal} {sc : Script}
    (hnd : (t.map Prod.fst).Nodup) (hget : tget t k = some v) :
    utxoSum (tdel t k) sc =
      utxoSum t sc - (if k.script = sc then v.2.valQ else 0) := by
  induction t with
  | nil => simp [tget] at hget
  | cons hd tl ih =>
    rw [List.map_cons, List.nodup_cons] at hnd
    by_cases hhd : hd.1 = k
    · have hu : hd.2 = v := by
        simp only [tget] at hget
        rw [List.find?_cons_of_pos _ (by simpa using hhd)] at hget
        simpa using hget
      have htl : tdel (hd :: tl) k = tl := by
        unfold tdel
        rw [List.filter_cons_of_neg (by simpa using hhd)]
        rw [show tl.filter (fun kv => decide (kv.1 ≠ k)) = tdel tl k from rfl]
        refine tdel_eq_self ?_
        intro kv hkv hk2
        exact hnd.1 (by rw [hhd, ← hk2]; exact List.mem_map_of_mem Prod.fst hkv)
      rw [htl, utxoSum_cons, ← hhd, hu]
      ring
    · have hget2 : tget tl k = some v := by
        simp only [tget] at hget ⊢
        rwa [List.find?_cons_of_neg _ (by simpa using hhd)] at hget
      have htl : tdel (hd :: tl) k = hd :: tdel tl k := by
        unfold tdel
        rw [List.filter_cons_of_pos (by simpa using hhd)]
      rw [htl, utxoSum_cons, utxoSum_cons, ih hnd.2 hget2]
      ring

theorem spentOf_append (a b : List Undo) :
    spentOf (a ++ b) = spentOf a ++ spentOf b := by
  unfold spentOf
  rw [List.filterMap_append]

theorem spentSum_snoc (us2 us : List Undo) (u : Utxo) (sc : Script)
    (h : spentOf us2 = spentOf us ++ [u]) :
    spentSum us2 sc = spentSum us sc + (if u.key.script = sc then u.value.valQ else 0) := by
  unfold spentSum
  rw [h, List.filter_append, List.map_append, List.sum_append]
  by_cases hk : u.key.script = sc
  · rw [if_pos hk]
    simp [hk]
  · rw [if_neg hk]
    simp [hk]

theorem spentSum_congr (us2 us : List Undo) (sc : Script)
    (h : spentOf us2 = spentOf us) : spentSum us2 sc = spentSum us sc := by
  unfold spentSum
  rw [h]

theorem spentSum_zero {us : List Undo} {sc : Script}
    (h : ∀ u ∈ spentOf us, u.key.script ≠ sc) : spentSum us sc = 0 := by
  unfold spentSum
  rw [List.filter_eq_nil_iff.mpr]
  · rfl
  · intro u hu
    simpa using h u hu

/-! ## Per-operation preservation of the mid-processing invariant -/

theorem spendVouts_cons_spend (v : Vout) (ops : List BlockOp) :
    spendVouts (BlockOp.spend v :: ops) = v :: spendVouts ops := rfl

theorem spendVouts_cons_create (u : Utxo) (ops : List BlockOp) :
    spendVouts (BlockOp.create u :: ops) = spendVouts ops := rfl

theorem createVouts_cons_spend (v : Vout) (ops : List BlockOp) :
    createVouts (BlockOp.spend v :: ops) = createVouts ops := rfl

theorem createVouts_cons_create (u : Utxo) (ops : List BlockOp) :
    createVouts (BlockOp.create u :: ops) = u.key.vout :: createVouts ops := rfl

theorem new_balance_valQ (sc : Script) : (ScriptInfo.new sc).balance.valQ = 0 := by
  simp [ScriptInfo.new, U128Decimal.zero, U128Decimal.valQ]

theorem applyOp_spend_mid {s : DbState} {st st' : Staging} {v : Vout}
    (hmi : MidInv s st)
    (hnew : v ∉ (spentOf st.undos).map fun u => u.key.vout)
    (h : applyOp s st (BlockOp.spend v) = some st') :
    MidInv s st' ∧
    (∀ kv ∈ st'.utxos, kv ∈ st.utxos) ∧
    (∀ u ∈ spentOf st'.undos, u ∈ spentOf st.undos ∨ u.key.vout = v) := by
  simp only [applyOp] at h
  cases hstg : tget st.utxos v with
  | some u0 =>
    rw [hstg] at h
    obtain ⟨info0, info', hf, hinfos, hutxos, hspent, hseed⟩ := update_info_char h
    have hmem0 : (v, u0) ∈ st.utxos := tget_mem hstg
    have hscr0 : u0.key.vout = v := hmi.stagedVout (v, u0) hmem0
    -- the script was already touched: a staged UTXO of this script exists
    have hseed' : tget st.infos u0.key.script = some info0 := by
      rcases hseed with hs | ⟨hnone, _⟩
      · exact hs
      · exact absurd rfl (hmi.untouchedStaged u0.key.script hnone (v, u0) hmem0)
    have hscr : info0.script = u0.key.script := hmi.infosKey _ (tget_mem hseed')
    have hch := add_spent_char hf
    have hutxos' : st'.utxos = tdel st.utxos v := hutxos
    have hinfos' : st'.infos = tput st.infos u0.key.script info' := hinfos
    have hspent' : spentOf st'.undos = spentOf st.undos := hspent
    refine ⟨⟨?_, ?_, ?_, ?_, ?_, ?_, ?_, ?_, ?_, ?_⟩, ?_, ?_⟩
    · rw [hutxos']
      exact nodup_keys_tdel v hmi.stagedNodup
    · intro kv hkv
      rw [hutxos'] at hkv
      exact hmi.stagedVout kv (mem_tdel hkv)
    · intro kv hkv
      rw [hutxos'] at hkv
      exact hmi.stagedFresh kv (mem_tdel hkv)
    · intro u hu
      rw [hspent'] at hu
      exact hmi.spentDisk u hu
    · rw [hspent']
      exact hmi.spentNodup
    · rw [hinfos']
      exact nodup_keys_tput _ _ hmi.infosNodup
    · intro kv hkv
      rw [hinfos'] at hkv
      rcases mem_tput hkv with hk | hk
      · rw [hk]
        rw [hch.1, hscr]
      · exact hmi.infosKey kv hk
    · intro sc' infoX hget'
      rw [hinfos'] at hget'
      by_cases hsc : sc' = u0.key.script
      · subst hsc
        rw [tget_tput_same] at hget'
        obtain rfl := Option.some.inj hget'
        rw [hch.2.1, hmi.balanceEq u0.key.script info0 hseed']
        rw [hutxos', stagedSum_tdel hmi.stagedNodup hstg, if_pos rfl]
        rw [spentSum_congr st'.undos st.undos u0.key.script hspent']
        ring
      · rw [tget_tput_ne _ _ _ _ hsc] at hget'
        rw [hmi.balanceEq sc' infoX hget']
        rw [hutxos', stagedSum_tdel hmi.stagedNodup hstg, if_neg (fun hc => hsc hc.symm)]
        rw [spentSum_congr st'.undos st.undos sc' hspent']
        ring
    · intro sc' hnone kv hkv
      rw [hinfos'] at hnone
      rw [hutxos'] at hkv
      by_cases hsc : sc' = u0.key.script
      · subst hsc
        rw [tget_tput_same] at hnone
        cases hnone
      · rw [tget_tput_ne _ _ _ _ hsc] at hnone
        exact hmi.untouchedStaged sc' hnone kv (mem_tdel hkv)
    · intro sc' hnone u hu
      rw [hinfos'] at hnone
      rw [hspent'] at hu
      by_cases hsc : sc' = u0.key.script
      · subst hsc
        rw [tget_tput_same] at hnone
        cases hnone
      · rw [tget_tput_ne _ _ _ _ hsc] at hnone
        exact hmi.untouchedSpent sc' hnone u hu
    · intro kv hkv
      rw [hutxos'] at hkv
      exact mem_tdel hkv
    · intro u hu
      rw [hspent'] at hu
      exact Or.inl hu
  | none =>
    rw [hstg] at h
    simp only [bind, Option.bind_eq_some, Option.pure_def, Option.some.injEq] at h
    obtain ⟨u, hgu, stA, hui, hst'⟩ := h
    obtain ⟨hvout, hdiskrow⟩ := get_utxo_char hgu
    obtain ⟨info0, info', hf, hinfosA, hutxosA, hspentA, hseed⟩ := update_info_char hui
    have hch := add_spent_char hf
    have hutxos' : st'.utxos = st.utxos := by rw [← hst']; exact hutxosA
    have hinfos' : st'.infos = tput st.infos u.key.script info' := by
      rw [← hst']; exact hinfosA
    have hspent' : spentOf st'.undos = spentOf st.undos ++ [u] := by
      rw [← hst']
      show spentOf (stA.undos ++ [Undo.UtxoKeyPut u.key, Undo.UtxoPut u]) = _
      rw [spentOf_append, hspentA]
      rfl
    have hscr : info0.script = u.key.script := by
      rcases hseed with hs | ⟨hnone, hrest⟩
      · exact hmi.infosKey _ (tget_mem hs)
      · rcases hrest with ⟨hd, hnew0⟩ | ⟨dv, hd, hassm⟩
        · rw [hnew0]
          rfl
        · rw [hassm]
          rfl
    refine ⟨⟨?_, ?_, ?_, ?_, ?_, ?_, ?_, ?_, ?_, ?_⟩, ?_, ?_⟩
    · rw [hutxos']
      exact hmi.stagedNodup
    · intro kv hkv
      rw [hutxos'] at hkv
      exact hmi.stagedVout kv hkv
    · intro kv hkv
      rw [hutxos'] at hkv
      exact hmi.stagedFresh kv hkv
    · intro x hx
      rw [hspent'] at hx
      rcases List.mem_append.mp hx with hx | hx
      · exact hmi.spentDisk x hx
      · obtain rfl := List.mem_singleton.mp hx
        exact hdiskrow
    · rw [hspent', List.map_append]
      rw [List.nodup_append]
      refine ⟨hmi.spentNodup, by simp, ?_⟩
      intro x hx hxv
      simp only [List.map_cons, List.map_nil, List.mem_singleton] at hxv
      rw [hvout] at hxv
      exact hnew (hxv ▸ hx)
    · rw [hinfos']
      exact nodup_keys_tput _ _ hmi.infosNodup
    · intro kv hkv
      rw [hinfos'] at hkv
      rcases mem_tput hkv with hk | hk
      · rw [hk]
        rw [hch.1, hscr]
      · exact hmi.infosKey kv hk
    · intro sc' infoX hget'
      rw [hinfos'] at hget'
      by_cases hsc : sc' = u.key.script
      · subst hsc
        rw [tget_tput_same] at hget'
        obtain rfl := Option.some.inj hget'
        rw [hch.2.1]
        rw [hutxos']
        rw [spentSum_snoc st'.undos st.undos u u.key.script hspent', if_pos rfl]
        rcases hseed with hs | ⟨hnone, hrest⟩
        · rw [hmi.balanceEq u.key.script info0 hs]
          ring
        · have hstg0 : stagedSum st.utxos u.key.script = 0 :=
            stagedSum_zero (hmi.untouchedStaged u.key.script hnone)
          have hsp0 : spentSum st.undos u.key.script = 0 :=
            spentSum_zero (hmi.untouchedSpent u.key.script hnone)
          rcases hrest with ⟨hd, hnew0⟩ | ⟨dv, hd, hassm⟩
          · rw [hnew0, new_balance_valQ, hstg0, hsp0]
            unfold diskBal
            rw [hd]
            ring
          · rw [hassm]
            show (ScriptInfo.assemble u.key.script dv).balance.valQ - u.value.valQ = _
            rw [hstg0, hsp0]
            unfold diskBal
            rw [hd]
            show dv.balance.valQ - u.value.valQ =
              dv.balance.valQ + 0 - (0 + u.value.valQ)
            ring
      · rw [tget_tput_ne _ _ _ _ hsc] at hget'
        rw [hmi.balanceEq sc' infoX hget']
        rw [hutxos']
        rw [spentSum_snoc st'.undos st.undos u sc' hspent',
          if_neg (fun hc => hsc hc.symm)]
        ring
    · intro sc' hnone kv hkv
      rw [hinfos'] at hnone
      rw [hutxos'] at hkv
      by_cases hsc : sc' = u.key.script
      · subst hsc
        rw [tget_tput_same] at hnone
        cases hnone
      · rw [tget_tput_ne _ _ _ _ hsc] at hnone
        exact hmi.untouchedStaged sc' hnone kv hkv
    · intro sc' hnone x hx
      rw [hinfos'] at hnone
      rw [hspent'] at hx
      by_cases hsc : sc' = u.key.script
      · subst hsc
        rw [tget_tput_same] at hnone
        cases hnone
      · rw [tget_tput_ne _ _ _ _ hsc] at hnone
        rcases List.mem_append.mp hx with hx | hx
        · exact hmi.untouchedSpent sc' hnone x hx
        · obtain rfl := List.mem_singleton.mp hx
          exact fun hc => hsc hc.symm
    · intro kv hkv
      rw [hutxos'] at hkv
      exact hkv
    · intro x hx
      rw [hspent'] at hx
      rcases List.mem_append.mp hx with hx | hx
      · exact Or.inl hx
      · obtain rfl := List.mem_singleton.mp hx
        exact Or.inr hvout

theorem applyOp_create_mid {s : DbState} {st st' : Staging} {u : Utxo}
    (hmi : MidInv s st)
    (hunstaged : u.key.vout ∉ st.utxos.map Prod.fst)
    (hfresh : ∀ du ∈ s.utxo, du.1.vout ≠ u.key.vout)
    (h : applyOp s st (BlockOp.create u) = some st') :
    MidInv s st' ∧
    (∀ kv ∈ st'.utxos, kv ∈ st.utxos ∨ kv = (u.key.vout, u)) ∧
    spentOf st'.undos = spentOf st.undos := by
  simp only [applyOp] at h
  simp only [bind, Option.bind_eq_some, Option.pure_def, Option.some.injEq] at h
  obtain ⟨stA, hui, hst'⟩ := h
  obtain ⟨info0, info', hf, hinfosA, hutxosA, hspentA, hseed⟩ := update_info_char hui
  have hch := add_unspent_char hf
  have hnotk : ∀ kv ∈ st.utxos, kv.1 ≠ u.key.vout := by
    intro kv hkv hk
    exact hunstaged (hk ▸ List.mem_map_of_mem Prod.fst hkv)
  have hutxos' : st'.utxos = (u.key.vout, u) :: st.utxos := by
    rw [← hst']
    show tput stA.utxos u.key.vout u = _
    rw [hutxosA]
    exact tput_eq_cons u hnotk
  have hinfos' : st'.infos = tput st.infos u.key.script info' := by
    rw [← hst']
    exact hinfosA
  have hspent' : spentOf st'.undos = spentOf st.undos := by
    rw [← hst']
    exact hspentA
  have hscr : info0.script = u.key.script := by
    rcases hseed with hs | ⟨hnone, hrest⟩
    · exact hmi.infosKey _ (tget_mem hs)
    · rcases hrest with ⟨hd, hnew0⟩ | ⟨dv, hd, hassm⟩
      · rw [hnew0]
        rfl
      · rw [hassm]
        rfl
  refine ⟨⟨?_, ?_, ?_, ?_, ?_, ?_, ?_, ?_, ?_, ?_⟩, ?_, ?_⟩
  · rw [hutxos', List.map_cons]
    exact List.Nodup.cons hunstaged hmi.stagedNodup
  · intro kv hkv
    rw [hutxos'] at hkv
    rcases List.mem_cons.mp hkv with hk | hk
    · rw [hk]
    · exact hmi.stagedVout kv hk
  · intro kv hkv
    rw [hutxos'] at hkv
    rcases List.mem_cons.mp hkv with hk | hk
    · intro du hdu
      rw [hk]
      exact hfresh du hdu
    · exact hmi.stagedFresh kv hk
  · intro x hx
    rw [hspent'] at hx
    exact hmi.spentDisk x hx
  · rw [hspent']
    exact hmi.spentNodup
  · rw [hinfos']
    exact nodup_keys_tput _ _ hmi.infosNodup
  · intro kv hkv
    rw [hinfos'] at hkv
    rcases mem_tput hkv with hk | hk
    · rw [hk]
      rw [hch.1, hscr]
    · exact hmi.infosKey kv hk
  · intro sc' infoX hget'
    rw [hinfos'] at hget'
    by_cases hsc : sc' = u.key.script
    · subst hsc
      rw [tget_tput_same] at hget'
      obtain rfl := Option.some.inj hget'
      rw [hch.2.1]
      rw [hutxos', stagedSum_cons, if_pos rfl]
      rw [spentSum_congr st'.undos st.undos u.key.script hspent']
      rcases hseed with hs | ⟨hnone, hrest⟩
      · rw [hmi.balanceEq u.key.script info0 hs]
        ring
      · have hstg0 : stagedSum st.utxos u.key.script = 0 :=
          stagedSum_zero (hmi.untouchedStaged u.key.script hnone)
        have hsp0 : spentSum st.undos u.key.script = 0 :=
          spentSum_zero (hmi.untouchedSpent u.key.script hnone)
        rcases hrest with ⟨hd, hnew0⟩ | ⟨dv, hd, hassm⟩
        · rw [hnew0, new_balance_valQ, hstg0, hsp0]
          unfold diskBal
          rw [hd]
          ring
        · rw [hassm]
          show (ScriptInfo.assemble u.key.script dv).balance.valQ + u.value.valQ = _
          rw [hstg0, hsp0]
          unfold diskBal
          rw [hd]
          show dv.balance.valQ + u.value.valQ =
            dv.balance.valQ + (u.value.valQ + 0) - 0
          ring
    · rw [tget_tput_ne _ _ _ _ hsc] at hget'
      rw [hmi.balanceEq sc' infoX hget']
      rw [hutxos', stagedSum_cons, if_neg (fun hc => hsc hc.symm)]
      rw [spentSum_congr st'.undos st.undos sc' hspent']
      ring
  · intro sc' hnone kv hkv
    rw [hinfos'] at hnone
    rw [hutxos'] at hkv
    by_cases hsc : sc' = u.key.script
    · subst hsc
      rw [tget_tput_same] at hnone
      cases hnone
    · rw [tget_tput_ne _ _ _ _ hsc] at hnone
      rcases List.mem_cons.mp hkv with hk | hk
      · rw [hk]
        exact fun hc => hsc hc.symm
      · exact hmi.untouchedStaged sc' hnone kv hk
  · intro sc' hnone x hx
    rw [hinfos'] at hnone
    rw [hspent'] at hx
    by_cases hsc : sc' = u.key.script
    · subst hsc
      rw [tget_tput_same] at hnone
      cases hnone
    · rw [tget_tput_ne _ _ _ _ hsc] at hnone
      exact hmi.untouchedSpent sc' hnone x hx
  · intro kv hkv
    rw [hutxos'] at hkv
    rcases List.mem_cons.mp hkv with hk | hk
    · exact Or.inr hk
    · exact Or.inl hk
  · exact hspent'

/-- Processing any well-formed operation list preserves the mid-processing
invariant. -/
theorem processOps_mid (s : DbState) : ∀ (ops : List BlockOp) (st st' : Staging),
    MidInv s st → OpsOK s st ops → processOps s st ops = some st' →
    MidInv s st' := by
  intro ops
  induction ops with
  | nil =>
    intro st st' hmi _ h
    obtain rfl := Option.some.inj h
    exact hmi
  | cons op rest ih =>
    intro st st' hmi hok h
    have hbind : (applyOp s st op).bind (fun st1 => processOps s st1 rest) = some st' := h
    rw [Option.bind_eq_some] at hbind
    obtain ⟨st1, ha, hrest⟩ := hbind
    cases op with
    | spend v =>
      have hv : v ∈ spendVouts (BlockOp.spend v :: rest) := by
        rw [spendVouts_cons_spend]
        exact List.mem_cons_self v _
      obtain ⟨hmi1, hsubset, hspent1⟩ :=
        applyOp_spend_mid hmi (hok.spendsNew v hv) ha
      have hnods : (v :: spendVouts rest).Nodup := by
        rw [← spendVouts_cons_spend]
        exact hok.spendsNodup
      rw [List.nodup_cons] at hnods
      refine ih st1 st' hmi1 ⟨hnods.2, ?_, ?_, ?_, ?_⟩ hrest
      · rw [← createVouts_cons_spend v rest]
        exact hok.createsNodup
      · intro v' hv' hv'mem
        simp only [List.mem_map] at hv'mem
        obtain ⟨x, hx, hxv⟩ := hv'mem
        rcases hspent1 x hx with hold | hnewv
        · refine hok.spendsNew v' ?_ (hxv ▸ List.mem_map_of_mem _ hold)
          rw [spendVouts_cons_spend]
          exact List.mem_cons_of_mem _ hv'
        · rw [hnewv] at hxv
          exact hnods.1 (hxv ▸ hv')
      · intro v' hv' hv'mem
        simp only [List.mem_map] at hv'mem
        obtain ⟨kv, hkv, hk⟩ := hv'mem
        refine hok.createsUnstaged v' ?_ (hk ▸ List.mem_map_of_mem Prod.fst (hsubset kv hkv))
        rw [createVouts_cons_spend]
        exact hv'
      · intro v' hv'
        refine hok.createsFresh v' ?_
        rw [createVouts_cons_spend]
        exact hv'
    | create u =>
      have hv : u.key.vout ∈ createVouts (BlockOp.create u :: rest) := by
        rw [createVouts_cons_create]
        exact List.mem_cons_self _ _
      obtain ⟨hmi1, hsubset, hspent1⟩ :=
        applyOp_create_mid hmi (hok.createsUnstaged u.key.vout hv)
          (hok.createsFresh u.key.vout hv) ha
      have hnodc : (u.key.vout :: createVouts rest).Nodup := by
        rw [← createVouts_cons_create]
        exact hok.createsNodup
      rw [List.nodup_cons] at hnodc
      refine ih st1 st' hmi1 ⟨?_, hnodc.2, ?_, ?_, ?_⟩ hrest
      · rw [← spendVouts_cons_create u rest]
        exact hok.spendsNodup
      · intro v' hv' hv'mem
        rw [hspent1] at hv'mem
        refine hok.spendsNew v' ?_ hv'mem
        rw [spendVouts_cons_create]
        exact hv'
      · intro v' hv' hv'mem
        simp only [List.mem_map] at hv'mem
        obtain ⟨kv, hkv, hk⟩ := hv'mem
        rcases hsubset kv hkv with hold | hnewkv
        · refine hok.createsUnstaged v' ?_ (hk ▸ List.mem_map_of_mem Prod.fst hold)
          rw [createVouts_cons_create]
          exact List.mem_cons_of_mem _ hv'
        · rw [hnewkv] at hk
          have hveq : u.key.vout = v' := hk
          rw [← hveq] at hv'
          exact absurd hv' hnodc.1
      · intro v' hv'
        refine hok.createsFresh v' ?_
        rw [createVouts_cons_create]
        exact List.mem_cons_of_mem _ hv'

/-! ## Batch-assembly fold lemmas -/

theorem tget_foldl_tput {K V A : Type} [DecidableEq K] (key : A → K) (val : A → V) :
    ∀ (l : List A) (base : List (K × V)) (k : K), (l.map key).Nodup →
    tget (l.foldl (fun t a => tput t (key a) (val a)) base) k =
      (match l.find? (fun a => decide (key a = k)) with
        | some a => some (val a)
        | none => tget base k) := by
  intro l
  induction l with
  | nil => intro base k _; rfl
  | cons a rest ih =>
    intro base k hnd
    rw [List.map_cons, List.nodup_cons] at hnd
    show tget (rest.foldl _ (tput base (key a) (val a))) k = _
    by_cases hk : key a = k
    · rw [List.find?_cons_of_pos _ (by simpa using hk)]
      have hfind : rest.find? (fun x => decide (key x = k)) = none := by
        rw [List.find?_eq_none]
        intro x hx
        simp only [decide_eq_true_eq]
        intro hxk
        refine hnd.1 ?_
        rw [show key a = key x from by rw [hk, hxk]]
        exact List.mem_map_of_mem key hx
      rw [ih _ k hnd.2, hfind]
      rw [← hk, tget_tput_same]
    · rw [List.find?_cons_of_neg _ (by simpa using hk)]
      rw [ih _ k hnd.2]
      cases rest.find? (fun x => decide (key x = k)) with
      | some x => rfl
      | none => exact tget_tput_ne _ _ _ _ fun hc => hk hc.symm

theorem nodup_foldl_tput {K V A : Type} [DecidableEq K] (key : A → K) (val : A → V) :
    ∀ (l : List A) (base : List (K × V)), (base.map Prod.fst).Nodup →
    ((l.foldl (fun t a => tput t (key a) (val a)) base).map Prod.fst).Nodup := by
  intro l
  induction l with
  | nil => intro base h; exact h
  | cons a rest ih =>
    intro base h
    exact ih _ (nodup_keys_tput _ _ h)

theorem mem_foldl_tput {K V A : Type} [DecidableEq K] (key : A → K) (val : A → V) :
    ∀ (l : List A) (base : List (K × V)) (kv : K × V),
    kv ∈ l.foldl (fun t a => tput t (key a) (val a)) base →
    kv ∈ base ∨ ∃ a ∈ l, kv = (key a, val a) := by
  intro l
  induction l with
  | nil => intro base kv h; exact Or.inl h
  | cons a rest ih =>
    intro base kv h
    rcases ih _ kv h with hbase | ⟨x, hx, hkv⟩
    · rcases mem_tput hbase with hk | hk
      · exact Or.inr ⟨a, List.mem_cons_self a rest, hk⟩
      · exact Or.inl hk
    · exact Or.inr ⟨x, List.mem_cons_of_mem a hx, hkv⟩

theorem utxoSum_foldl_staged (sc : Script) :
    ∀ (l : List (Vout × Utxo)) (base : List (UtxoKey × (Bool × U128Decimal))),
    (∀ kv ∈ l, kv.2.key.vout = kv.1) →
    (l.map Prod.fst).Nodup →
    (∀ kv ∈ l, ∀ du ∈ base, du.1.vout ≠ kv.1) →
    utxoSum (l.foldl (fun t kv => tput t kv.2.key (kv.2.coinbase, kv.2.value)) base) sc =
      utxoSum base sc + stagedSum l sc := by
  intro l
  induction l with
  | nil =>
    intro base _ _ _
    show utxoSum base sc = utxoSum base sc + stagedSum [] sc
    show utxoSum base sc = utxoSum base sc + 0
    ring
  | cons kv rest ih =>
    intro base hvout hnd hfresh
    rw [List.map_cons, List.nodup_cons] at hnd
    have hfreshhd : ∀ du ∈ base, du.1 ≠ kv.2.key := by
      intro du hdu hc
      exact hfresh kv (List.mem_cons_self kv rest) du hdu
        (by rw [hc, hvout kv (List.mem_cons_self kv rest)])
    show utxoSum (rest.foldl _ (tput base kv.2.key (kv.2.coinbase, kv.2.value))) sc = _
    rw [ih (tput base kv.2.key (kv.2.coinbase, kv.2.value))
      (fun x hx => hvout x (List.mem_cons_of_mem kv hx)) hnd.2 ?_]
    · rw [utxoSum_tput_fresh _ sc hfreshhd, stagedSum_cons]
      ring
    · intro x hx du hdu
      rcases mem_tput hdu with hdk | hdk
      · rw [hdk]
        show kv.2.key.vout ≠ x.1
        rw [hvout kv (List.mem_cons_self kv rest)]
        intro hc
        exact hnd.1 (hc ▸ List.mem_map_of_mem Prod.fst hx)
      · exact hfresh x (List.mem_cons_of_mem kv hx) du hdk

theorem spentOf_stagedUndos (l : List (Vout × Utxo)) : spentOf (stagedUndos l) = [] := by
  induction l with
  | nil => rfl
  | cons kv rest ih =>
    show spentOf (Undo.UtxoDelete kv.2.key :: Undo.UtxoKeyDelete kv.1 :: stagedUndos rest) = []
    show spentOf (stagedUndos rest) = []
    exact ih

theorem spentOf_finalUndos (st : Staging) :
    spentOf (finalUndos st) = spentOf st.undos := by
  unfold finalUndos
  rw [spentOf_append, spentOf_stagedUndos, List.append_nil]

theorem fold_undo_deletes {V2 : Type} [DecidableEq UtxoKey]
    (f : List (UtxoKey × V2) → UtxoKey → List (UtxoKey × V2)) :
    ∀ (us : List Undo) (t : List (UtxoKey × V2)),
    us.foldl (fun t u => match u with | Undo.UtxoPut x => f t x.key | _ => t) t =
      (spentOf us).foldl (fun t x => f t x.key) t := by
  intro us
  induction us with
  | nil => intro t; rfl
  | cons u rest ih =>
    intro t
    cases u with
    | UtxoPut x =>
      show rest.foldl _ (f t x.key) = (spentOf (Undo.UtxoPut x :: rest)).foldl _ t
      rw [show spentOf (Undo.UtxoPut x :: rest) = x :: spentOf rest from rfl]
      exact ih (f t x.key)
    | UtxoDelete k => exact ih t
    | UtxoKeyPut k => exact ih t
    | UtxoKeyDelete v => exact ih t
    | ScriptInfoPut i => exact ih t
    | ScriptInfoDelete sc2 => exact ih t

theorem nodup_foldl_tdel {K V : Type} [DecidableEq K] (key2 : Utxo → K) :
    ∀ (xs : List Utxo) (t : List (K × V)), (t.map Prod.fst).Nodup →
    ((xs.foldl (fun t x => tdel t (key2 x)) t).map Prod.fst).Nodup := by
  intro xs
  induction xs with
  | nil => intro t h; exact h
  | cons x rest ih =>
    intro t h
    exact ih _ (nodup_keys_tdel _ h)

theorem mem_foldl_tdel {K V : Type} [DecidableEq K] (key2 : Utxo → K) :
    ∀ (xs : List Utxo) (t : List (K × V)) (kv : K × V),
    kv ∈ xs.foldl (fun t x => tdel t (key2 x)) t → kv ∈ t := by
  intro xs
  induction xs with
  | nil => intro t kv h; exact h
  | cons x rest ih =>
    intro t kv h
    exact mem_tdel (ih _ kv h)

theorem utxoSum_foldl_spent (sc : Script) :
    ∀ (xs : List Utxo) (t : List (UtxoKey × (Bool × U128Decimal))),
    (xs.map fun x => x.key).Nodup →
    (∀ x ∈ xs, tget t x.key = some (x.coinbase, x.value)) →
    (t.map Prod.fst).Nodup →
    utxoSum (xs.foldl (fun t x => tdel t x.key) t) sc =
      utxoSum t sc -
        ((xs.filter fun x => decide (x.key.script = sc)).map fun x => x.value.valQ).sum := by
  intro xs
  induction xs with
  | nil =>
    intro t _ _ _
    show utxoSum t sc = utxoSum t sc - ([] : List ℚ).sum
    simp
  | cons x rest ih =>
    intro t hnd hpres htnd
    rw [List.map_cons, List.nodup_cons] at hnd
    show utxoSum (rest.foldl _ (tdel t x.key)) sc = _
    rw [ih (tdel t x.key) hnd.2 ?_ (nodup_keys_tdel _ htnd)]
    · rw [utxoSum_tdel htnd (hpres x (List.mem_cons_self x rest))]
      by_cases hsc2 : x.key.script = sc
      · rw [List.filter_cons_of_pos (by simpa using hsc2), if_pos hsc2]
        rw [List.map_cons, List.sum_cons]
        ring
      · rw [List.filter_cons_of_neg (by simpa using hsc2), if_neg hsc2]
        ring
    · intro y hy
      rw [tget_tdel_ne]
      · exact hpres y (List.mem_cons_of_mem x hy)
      · intro hc
        exact hnd.1 (hc ▸ List.mem_map_of_mem (fun z => z.key) hy)

theorem tget_foldl_spent_notmem :
    ∀ (xs : List Utxo) (t : List (UtxoKey × (Bool × U128Decimal))) (k : UtxoKey),
    (∀ x ∈ xs, x.key ≠ k) →
    tget (xs.foldl (fun t x => tdel t x.key) t) k = tget t k := by
  intro xs
  induction xs with
  | nil => intro t k _; rfl
  | cons x rest ih =>
    intro t k hne
    show tget (rest.foldl _ (tdel t x.key)) k = _
    rw [ih _ k fun y hy => hne y (List.mem_cons_of_mem x hy)]
    exact tget_tdel_ne _ _ _ fun hc =>
      hne x (List.mem_cons_self x rest) hc.symm

theorem find?_infos_eq (sc : Script) :
    ∀ (l : List (Script × ScriptInfo)), (∀ kv ∈ l, kv.2.script = kv.1) →
    l.find? (fun kv => decide (kv.2.script = sc)) =
      l.find? (fun kv => decide (kv.1 = sc)) := by
  intro l
  induction l with
  | nil => intro _; rfl
  | cons kv rest ih =>
    intro hkey
    have hk := hkey kv (List.mem_cons_self kv rest)
    by_cases hsc2 : kv.1 = sc
    · rw [List.find?_cons_of_pos _ (by simpa using hk.trans hsc2),
        List.find?_cons_of_pos _ (by simpa using hsc2)]
    · rw [List.find?_cons_of_neg _ (by simp [hk]; exact hsc2),
        List.find?_cons_of_neg _ (by simpa using hsc2)]
      exact ih fun x hx => hkey x (List.mem_cons_of_mem kv hx)

/-- Committing the batch assembled by `push` preserves the balance
invariant: the new `Utxo` table is the old one plus the surviving staged
rows minus the spent disk rows, and every staged aggregate accounts for
exactly that difference. -/
theorem applyBlock_DbInv (s : DbState) (b : Rpc.Block) (st : Staging)
    (hinv : DbInv s) (hmi : MidInv s st) : DbInv (applyBlock s b st) := by
  have hAu : (applyBlock s b st).utxo =
      (spentOf st.undos).foldl (fun t x => tdel t x.key)
        (st.utxos.foldl (fun t kv => tput t kv.2.key (kv.2.coinbase, kv.2.value)) s.utxo) := by
    show (finalUndos st).foldl
        (fun t u => match u with | Undo.UtxoPut x => tdel t x.key | _ => t)
        (st.utxos.foldl (fun t kv => tput t kv.2.key (kv.2.coinbase, kv.2.value)) s.utxo) = _
    rw [fold_undo_deletes (fun t k => tdel t k) (finalUndos st), spentOf_finalUndos]
  have hAsi : (applyBlock s b st).scriptInfo =
      st.infos.foldl (fun t kv => tput t kv.2.script kv.2.toVal) s.scriptInfo := rfl
  -- staged full keys are unrepeated and fresh with respect to the disk table
  have hstagedKeyVout : (st.utxos.map fun kv => kv.2.key).map UtxoKey.vout =
      st.utxos.map Prod.fst := by
    rw [List.map_map]
    exact List.map_congr_left hmi.stagedVout
  have hstagedKeyNodup : (st.utxos.map fun kv => kv.2.key).Nodup :=
    List.Nodup.of_map UtxoKey.vout (by rw [hstagedKeyVout]; exact hmi.stagedNodup)
  have hfreshKeys : ∀ kv ∈ st.utxos, ∀ du ∈ s.utxo, du.1.vout ≠ kv.1 :=
    hmi.stagedFresh
  -- the spent rows: unrepeated keys, not staged, present after the put fold
  have hspentKeyNodup : ((spentOf st.undos).map fun x => x.key).Nodup := by
    refine List.Nodup.of_map UtxoKey.vout ?_
    rw [List.map_map]
    exact hmi.spentNodup
  have hspentNotStaged : ∀ x ∈ spentOf st.undos, ∀ kv ∈ st.utxos, kv.2.key ≠ x.key := by
    intro x hx kv hkv hc
    have hrow := hmi.spentDisk x hx
    have hd := hmi.stagedFresh kv hkv (x.key, (x.coinbase, x.value)) (tget_mem hrow)
    refine hd ?_
    rw [← hc, hmi.stagedVout kv hkv]
  have hspentPres : ∀ x ∈ spentOf st.undos,
      tget (st.utxos.foldl (fun t kv => tput t kv.2.key (kv.2.coinbase, kv.2.value))
        s.utxo) x.key = some (x.coinbase, x.value) := by
    intro x hx
    have hchar := tget_foldl_tput (fun kv : Vout × Utxo => kv.2.key)
      (fun kv => (kv.2.coinbase, kv.2.value)) st.utxos s.utxo x.key hstagedKeyNodup
    rw [hchar]
    have hfind : st.utxos.find? (fun kv => decide (kv.2.key = x.key)) = none := by
      rw [List.find?_eq_none]
      intro kv hkv
      simpa using hspentNotStaged x hx kv hkv
    rw [hfind]
    exact hmi.spentDisk x hx
  have hu1nodup : ((st.utxos.foldl
      (fun t kv => tput t kv.2.key (kv.2.coinbase, kv.2.value)) s.utxo).map
        Prod.fst).Nodup :=
    nodup_foldl_tput _ _ st.utxos s.utxo hinv.utxoNodup
  -- the ScriptInfo read-back over the put fold
  have hsi : ∀ sc, tget (applyBlock s b st).scriptInfo sc =
      (match tget st.infos sc with
        | some info => some info.toVal
        | none => tget s.scriptInfo sc) := by
    intro sc
    rw [hAsi]
    have hkeys : (st.infos.map fun kv => kv.2.script).Nodup := by
      rw [List.map_congr_left hmi.infosKey]
      exact hmi.infosNodup
    have hchar := tget_foldl_tput (fun kv : Script × ScriptInfo => kv.2.script)
      (fun kv => kv.2.toVal) st.infos s.scriptInfo sc hkeys
    rw [hchar, find?_infos_eq sc st.infos hmi.infosKey]
    cases hf : st.infos.find? (fun kv => decide (kv.1 = sc)) with
    | some kv =>
      have hget2 : tget st.infos sc = some kv.2 := by
        simp only [tget, hf, Option.map_some']
      rw [hget2]
    | none =>
      have hget2 : tget st.infos sc = none := by
        simp only [tget, hf, Option.map_none']
      rw [hget2]
  refine ⟨?_, ?_, ?_⟩
  · rw [hAu]
    exact nodup_foldl_tdel _ (spentOf st.undos) _ hu1nodup
  · intro kv hkv
    rw [hAu] at hkv
    have hmem1 := mem_foldl_tdel _ (spentOf st.undos) _ kv hkv
    rcases mem_foldl_tput _ _ st.utxos s.utxo kv hmem1 with hdisk | ⟨x, hx, hkv2⟩
    · have := hinv.utxoInfo kv hdisk
      rw [hsi kv.1.script]
      cases hst2 : tget st.infos kv.1.script with
      | some info => simp
      | none =>
        simpa using this
    · rw [hkv2]
      rw [hsi]
      cases hst2 : tget st.infos x.2.key.script with
      | some info => simp
      | none =>
        exact absurd rfl (hmi.untouchedStaged x.2.key.script hst2 x hx)
  · intro sc v hv
    rw [hsi sc] at hv
    have hsum : utxoSum (applyBlock s b st).utxo sc =
        utxoSum s.utxo sc + stagedSum st.utxos sc - spentSum st.undos sc := by
      rw [hAu]
      have hdel : utxoSum ((spentOf st.undos).foldl (fun t x => tdel t x.key)
          (st.utxos.foldl (fun t kv => tput t kv.2.key (kv.2.coinbase, kv.2.value))
            s.utxo)) sc =
          utxoSum (st.utxos.foldl
            (fun t kv => tput t kv.2.key (kv.2.coinbase, kv.2.value)) s.utxo) sc -
          (((spentOf st.undos).filter fun x => decide (x.key.script = sc)).map
            fun x => x.value.valQ).sum :=
        utxoSum_foldl_spent sc (spentOf st.undos) _ hspentKeyNodup hspentPres hu1nodup
      rw [hdel]
      have hput : utxoSum (st.utxos.foldl
          (fun t kv => tput t kv.2.key (kv.2.coinbase, kv.2.value)) s.utxo) sc =
          utxoSum s.utxo sc + stagedSum st.utxos sc :=
        utxoSum_foldl_staged sc st.utxos s.utxo hmi.stagedVout hmi.stagedNodup
          hmi.stagedFresh
      rw [hput]
      rfl
    rw [hsum]
    cases hst2 : tget st.infos sc with
    | some info =>
      rw [hst2] at hv
      obtain rfl := Option.some.inj hv
      show info.balance.valQ = _
      rw [hmi.balanceEq sc info hst2]
      have hdisk2 : diskBal s sc = utxoSum s.utxo sc := by
        unfold diskBal
        cases hd : tget s.scriptInfo sc with
        | some dv => exact hinv.balance sc dv hd
        | none =>
          rw [utxoSum_zero]
          intro kv hkv hc
          have := hinv.utxoInfo kv hkv
          rw [hc, hd] at this
          simp at this
      rw [hdisk2]
    | none =>
      rw [hst2] at hv
      have hstg0 : stagedSum st.utxos sc = 0 :=
        stagedSum_zero (hmi.untouchedStaged sc hst2)
      have hsp0 : spentSum st.undos sc = 0 :=
        spentSum_zero (hmi.untouchedSpent sc hst2)
      rw [hstg0, hsp0, hinv.balance sc v hv]
      ring

/-! ## From block structure to flat operations -/

theorem txSpends_cited : ∀ (vins : List Rpc.Vin) (sp : List Vout),
    txSpends vins = some sp →
    sp = vins.filterMap fun vin =>
      match vin.txid, vin.vout with
      | some t, some n => some (⟨t, n⟩ : Vout)
      | _, _ => none := by
  intro vins
  induction vins with
  | nil =>
    intro sp h
    obtain rfl := Option.some.inj h
    rfl
  | cons vin rest ih =>
    intro sp h
    obtain ⟨otx, ovt⟩ := vin
    cases otx with
    | none =>
      cases hts : txSpends rest with
      | none =>
        rw [show txSpends (⟨none, ovt⟩ :: rest) = none from by
          show ((some ([] : List Vout)).bind fun s1 =>
            (txSpends rest).bind fun s2 => some (s1 ++ s2)) = none
          rw [Option.some_bind, hts]
          rfl] at h
        cases h
      | some sp2 =>
        rw [show txSpends (⟨none, ovt⟩ :: rest) = some sp2 from by
          show ((some ([] : List Vout)).bind fun s1 =>
            (txSpends rest).bind fun s2 => some (s1 ++ s2)) = some sp2
          rw [Option.some_bind, hts, Option.some_bind, List.nil_append]] at h
        obtain rfl := Option.some.inj h
        rw [ih sp2 hts]
        rfl
    | some t =>
      cases ovt with
      | none =>
        rw [show txSpends (⟨some t, none⟩ :: rest) = none from rfl] at h
        cases h
      | some n =>
        cases hts : txSpends rest with
        | none =>
          rw [show txSpends (⟨some t, some n⟩ :: rest) = none from by
            show ((some [(⟨t, n⟩ : Vout)]).bind fun s1 =>
              (txSpends rest).bind fun s2 => some (s1 ++ s2)) = none
            rw [Option.some_bind, hts]
            rfl] at h
          cases h
        | some sp2 =>
          rw [show txSpends (⟨some t, some n⟩ :: rest) = some ((⟨t, n⟩ : Vout) :: sp2) from by
            show ((some [(⟨t, n⟩ : Vout)]).bind fun s1 =>
              (txSpends rest).bind fun s2 => some (s1 ++ s2)) = _
            rw [Option.some_bind, hts, Option.some_bind]
            rfl] at h
          obtain rfl := Option.some.inj h
          rw [ih sp2 hts]
          rfl

theorem spendVouts_append (a b : List BlockOp) :
    spendVouts (a ++ b) = spendVouts a ++ spendVouts b := by
  unfold spendVouts
  rw [List.filterMap_append]

theorem createVouts_append (a b : List BlockOp) :
    createVouts (a ++ b) = createVouts a ++ createVouts b := by
  unfold createVouts
  rw [List.filterMap_append]

theorem spendVouts_map_spend (sp : List Vout) :
    spendVouts (sp.map BlockOp.spend) = sp := by
  induction sp with
  | nil => rfl
  | cons v rest ih =>
    show v :: spendVouts (rest.map BlockOp.spend) = v :: rest
    rw [ih]

theorem spendVouts_createOps (height : Nat) (tx : Rpc.Tx) :
    spendVouts (createOps height tx) = [] := by
  unfold createOps
  induction tx.vout with
  | nil => rfl
  | cons tv rest ih => exact ih

theorem createVouts_map_spend (sp : List Vout) :
    createVouts (sp.map BlockOp.spend) = [] := by
  induction sp with
  | nil => rfl
  | cons v rest ih => exact ih

theorem createVouts_createOps (height : Nat) (tx : Rpc.Tx) :
    createVouts (createOps height tx) = tx.vout.map fun tv => (⟨tx.txid, tv.n⟩ : Vout) := by
  unfold createOps
  induction tx.vout with
  | nil => rfl
  | cons tv rest ih =>
    show (⟨tx.txid, tv.n⟩ : Vout) :: createVouts (rest.map _) = _
    rw [List.map_cons]
    congr 1

theorem blockOps_vouts (height : Nat) : ∀ (txs : List Rpc.Tx) (ops : List BlockOp),
    blockOps height txs = some ops →
    spendVouts ops = citedVouts txs ∧ createVouts ops = createdVouts txs := by
  intro txs
  induction txs with
  | nil =>
    intro ops h
    obtain rfl := Option.some.inj h
    exact ⟨rfl, rfl⟩
  | cons tx rest ih =>
    intro ops h
    have hb : (txSpends tx.vin).bind (fun sp => (blockOps height rest).bind fun others =>
        some (sp.map BlockOp.spend ++ createOps height tx ++ others)) = some ops := h
    rw [Option.bind_eq_some] at hb
    obtain ⟨sp, hsp, hb2⟩ := hb
    rw [Option.bind_eq_some] at hb2
    obtain ⟨others, hothers, hops⟩ := hb2
    obtain rfl := Option.some.inj hops
    obtain ⟨ihs, ihc⟩ := ih others hothers
    constructor
    · rw [spendVouts_append, spendVouts_append, spendVouts_map_spend,
        spendVouts_createOps, ihs, List.append_nil]
      show sp ++ citedVouts rest = citedOfTx tx ++ citedVouts rest
      rw [txSpends_cited tx.vin sp hsp]
      rfl
    · rw [createVouts_append, createVouts_append, createVouts_map_spend,
        createVouts_createOps, ihc, List.nil_append]
      rfl

/-! ## Push preserves the balance invariant -/

theorem midInv_empty (s : DbState) : MidInv s ⟨[], [], []⟩ := by
  refine ⟨by simp, by simp, by simp, ?_, ?_, by simp, by simp, ?_, by simp, ?_⟩
  · intro u hu
    simp [spentOf] at hu
  · simp [spentOf]
  · intro sc info h
    simp [tget] at h
  · intro sc _ u hu
    simp [spentOf] at hu

theorem push_DbInv {s : DbState} {b : Rpc.Block} {s' : DbState}
    (hinv : DbInv s) (hwf : WFBlock b s) (h : push s b = some s') : DbInv s' := by
  unfold push at h
  rw [Option.map_eq_some'] at h
  obtain ⟨st, hpb, hs'⟩ := h
  rw [← hs']
  have hmi : MidInv s st := by
    rw [processBlock_eq] at hpb
    rw [Option.bind_eq_some] at hpb
    obtain ⟨ops, hbo, hpo⟩ := hpb
    obtain ⟨hcv1, hcv2⟩ := blockOps_vouts b.height b.tx ops hbo
    refine processOps_mid s ops ⟨[], [], []⟩ st (midInv_empty s) ⟨?_, ?_, ?_, ?_, ?_⟩ hpo
    · rw [hcv1]
      exact hwf.citedNodup
    · rw [hcv2]
      exact hwf.createdNodup
    · intro v _ hmem
      simp [spentOf] at hmem
    · intro v _ hmem
      simp at hmem
    · intro v hv
      rw [hcv2] at hv
      exact hwf.createdFresh v hv
  exact applyBlock_DbInv s b st hinv hmi

theorem dbInv_empty : DbInv dbEmpty := by
  refine ⟨by simp [dbEmpty], by simp [dbEmpty], ?_⟩
  intro sc v hv
  simp [tget, dbEmpty] at hv

theorem reachableWF_DbInv {s : DbState} (h : ReachableWF s) : DbInv s := by
  induction h with
  | empty => exact dbInv_empty
  | step hr hwf hp ih => exact push_DbInv ih hwf hp

/-! ## Claim C9 -/

/-- Counterexample to C9 as stated: the duplicate push of the same
coinbase block is a successful push from a reachable state, but it
overwrites the existing `Utxo` row (same composite key) while adding its
value to the balance a second time — the resulting state `s2cb0` has
balance `100` against a row sum of `50` for script `[1]`. -/
theorem balance_sum_fails_on_duplicate_push :
    Reachable s2cb0 ∧
    tget s2cb0.scriptInfo [1] = some ⟨⟨100, 0⟩, ⟨0, 0⟩, ⟨100, 0⟩, 2⟩ ∧
    ¬ ((⟨⟨100, 0⟩, ⟨0, 0⟩, ⟨100, 0⟩, 2⟩ : SIVal).balance.valQ = utxoSum s2cb0.utxo [1]) := by
  have hp1 : push dbEmpty cb0 = some s1cb0 := by decide
  have hp2 : push s1cb0 cb0 = some s2cb0 := by decide
  refine ⟨Reachable.step (Reachable.step Reachable.empty hp1) hp2, by decide, ?_⟩
  have h1 : utxoSum s2cb0.utxo [1] = 50 := by
    simp [utxoSum, s2cb0, U128Decimal.valQ]
  have h2 : (⟨⟨100, 0⟩, ⟨0, 0⟩, ⟨100, 0⟩, 2⟩ : SIVal).balance.valQ = 100 := by
    simp [U128Decimal.valQ]
  rw [h1, h2]
  norm_num

/-- Claim C9 as amended: in every committed state reachable by successful
pushes of well-formed blocks (created outpoints pairwise distinct and not
already owning a `Utxo` row, cited outpoints pairwise distinct), every
script with a `ScriptInfo` row has `balance` equal to the decimal sum of
the `value` fields of the `Utxo` rows whose key script is that script;
push preserves this because every `add_unspent` is matched by a staged
`Utxo` insertion and every `add_spent` by a removal of the spent UTXO. -/
theorem balance_eq_utxo_sum_of_reachable {s : DbState} (h : ReachableWF s)
    (sc : Script) (v : SIVal) (hv : tget s.scriptInfo sc = some v) :
    v.balance.valQ = utxoSum s.utxo sc :=
  (reachableWF_DbInv h).balance sc v hv

/-- Witness for C9 on the state reached by pushing `cb0`. -/
theorem balance_eq_utxo_sum_witness :
    push dbEmpty cb0 = some s1cb0 ∧
    tget s1cb0.scriptInfo [1] = some ⟨⟨50, 0⟩, ⟨0, 0⟩, ⟨50, 0⟩, 1⟩ ∧
    (⟨⟨50, 0⟩, ⟨0, 0⟩, ⟨50, 0⟩, 1⟩ : SIVal).balance.valQ = utxoSum s1cb0.utxo [1] :=
  ⟨by decide, by decide,
    balance_eq_utxo_sum_of_reachable
      (ReachableWF.step ReachableWF.empty ⟨by decide, by decide, by decide⟩
        (by decide : push dbEmpty cb0 = some s1cb0))
      [1] ⟨⟨50, 0⟩, ⟨0, 0⟩, ⟨50, 0⟩, 1⟩ (by decide)⟩

/-! ## Claim C7: the aggregate identity `balance = received − sent` -/

theorem update_info_ident {s : DbState} {st : Staging} {sc : Script}
    {f : ScriptInfo → Option ScriptInfo} {st' : Staging}
    (hdisk : ∀ kv ∈ s.scriptInfo, infoIdent kv.2.balance kv.2.total_sent kv.2.total_received)
    (hst : ∀ kv ∈ st.infos, infoIdent kv.2.balance kv.2.total_sent kv.2.total_received)
    (hf : ∀ si si', infoIdent si.balance si.total_sent si.total_received →
      f si = some si' → infoIdent si'.balance si'.total_sent si'.total_received)
    (h : update_info s st sc f = some st') :
    ∀ kv ∈ st'.infos, infoIdent kv.2.balance kv.2.total_sent kv.2.total_received := by
  obtain ⟨info0, info', hfeq, hinfos, -, -, hsrc⟩ := update_info_char h
  have hid0 : infoIdent info0.balance info0.total_sent info0.total_received := by
    rcases hsrc with hmem | ⟨-, hcase⟩
    · exact hst (sc, info0) (tget_mem hmem)
    · rcases hcase with ⟨-, rfl⟩ | ⟨dv, hdv, rfl⟩
      · exact infoIdent_new sc
      · exact hdisk (sc, dv) (tget_mem hdv)
  intro kv hkv
  rw [hinfos] at hkv
  rcases mem_tput hkv with rfl | hmem
  · exact hf info0 info' hid0 hfeq
  · exact hst kv hmem

theorem applyOp_ident (s : DbState) (st : Staging) (op : BlockOp) (st' : Staging)
    (hdisk : ∀ kv ∈ s.scriptInfo, infoIdent kv.2.balance kv.2.total_sent kv.2.total_received)
    (hst : ∀ kv ∈ st.infos, infoIdent kv.2.balance kv.2.total_sent kv.2.total_received)
    (h : applyOp s st op = some st') :
    ∀ kv ∈ st'.infos, infoIdent kv.2.balance kv.2.total_sent kv.2.total_received := by
  cases op with
  | spend v =>
    unfold applyOp at h
    simp only [] at h
    cases htg : tget st.utxos v with
    | some utxo =>
      rw [htg] at h
      simp only [] at h
      have hst2 : ∀ kv ∈ (⟨st.undos, tdel st.utxos v, st.infos⟩ : Staging).infos,
          infoIdent kv.2.balance kv.2.total_sent kv.2.total_received := hst
      exact update_info_ident hdisk hst2
        (fun si si' hid hfe => infoIdent_add_spent hid hfe) h
    | none =>
      rw [htg] at h
      simp only [] at h
      simp only [bind, Option.bind_eq_some, Option.pure_def, Option.some.injEq] at h
      obtain ⟨utxo, hu, st1, hui, hst'⟩ := h
      subst hst'
      intro kv hkv
      exact update_info_ident hdisk hst
        (fun si si' hid hfe => infoIdent_add_spent hid hfe) hui kv hkv
  | create u =>
    unfold applyOp at h
    simp only [bind, Option.bind_eq_some, Option.pure_def, Option.some.injEq] at h
    obtain ⟨st1, hui, hst'⟩ := h
    subst hst'
    intro kv hkv
    exact update_info_ident hdisk hst
      (fun si si' hid hfe => infoIdent_add_unspent hid hfe) hui kv hkv

theorem processOps_ident (s : DbState)
    (hdisk : ∀ kv ∈ s.scriptInfo, infoIdent kv.2.balance kv.2.total_sent kv.2.total_received) :
    ∀ (ops : List BlockOp) (st st' : Staging),
    (∀ kv ∈ st.infos, infoIdent kv.2.balance kv.2.total_sent kv.2.total_received) →
    processOps s st ops = some st' →
    ∀ kv ∈ st'.infos, infoIdent kv.2.balance kv.2.total_sent kv.2.total_received := by
  intro ops
  induction ops with
  | nil =>
    intro st st' hst h
    obtain rfl := Option.some.inj h
    exact hst
  | cons op rest ih =>
    intro st st' hst h
    simp only [processOps, bind, Option.bind_eq_some] at h
    obtain ⟨st1, hop, hrest⟩ := h
    exact ih st1 st' (applyOp_ident s st op st1 hdisk hst hop) hrest

theorem push_infoIdent {s : DbState} {b : Rpc.Block} {s' : DbState}
    (hdisk : ∀ kv ∈ s.scriptInfo, infoIdent kv.2.balance kv.2.total_sent kv.2.total_received)
    (hp : push s b = some s') :
    ∀ kv ∈ s'.scriptInfo, infoIdent kv.2.balance kv.2.total_sent kv.2.total_received := by
  unfold push at hp
  simp only [Option.map_eq_some'] at hp
  obtain ⟨st, hpb, hs'⟩ := hp
  subst hs'
  rw [processBlock_eq] at hpb
  simp only [bind, Option.bind_eq_some] at hpb
  obtain ⟨ops, hops, hpo⟩ := hpb
  have hstinf := processOps_ident s hdisk ops ⟨[], [], []⟩ st
    (by intro kv hkv; simp at hkv) hpo
  intro kv hkv
  have hA : (applyBlock s b st).scriptInfo =
      st.infos.foldl (fun t kv => tput t kv.2.script kv.2.toVal) s.scriptInfo := rfl
  rw [hA] at hkv
  rcases mem_foldl_tput (fun kv => kv.2.script) (fun kv => kv.2.toVal)
      st.infos s.scriptInfo kv hkv with hbase | ⟨a, ha, rfl⟩
  · exact hdisk kv hbase
  · exact hstinf a ha

theorem reachable_infoIdent {s : DbState} (h : Reachable s) :
    ∀ kv ∈ s.scriptInfo, infoIdent kv.2.balance kv.2.total_sent kv.2.total_received := by
  induction h with
  | empty => intro kv hkv; simp [dbEmpty] at hkv
  | step hr hp ih => exact push_infoIdent ih hp

/-- Claim C7: in every committed state reachable by successful pushes,
every script with a `ScriptInfo` row satisfies `balance = total_received −
total_sent` as decimal values; a freshly created `ScriptInfo` satisfies it
with all zeros, and both `add_unspent` and `add_spent` preserve the
equality whenever they succeed. -/
theorem script_info_aggregate_identity {s : DbState} (h : Reachable s)
    (sc : Script) (v : SIVal) (hv : tget s.scriptInfo sc = some v) :
    v.balance.valQ = v.total_received.valQ - v.total_sent.valQ ∧
    ((ScriptInfo.new sc).balance = U128Decimal.zero ∧
      (ScriptInfo.new sc).total_sent = U128Decimal.zero ∧
      (ScriptInfo.new sc).total_received = U128Decimal.zero ∧
      infoIdent (ScriptInfo.new sc).balance (ScriptInfo.new sc).total_sent
        (ScriptInfo.new sc).total_received) ∧
    (∀ (si si' : ScriptInfo) (val : U128Decimal),
      infoIdent si.balance si.total_sent si.total_received →
      si.add_unspent val = some si' →
      infoIdent si'.balance si'.total_sent si'.total_received) ∧
    (∀ (si si' : ScriptInfo) (val : U128Decimal),
      infoIdent si.balance si.total_sent si.total_received →
      si.add_spent val = some si' →
      infoIdent si'.balance si'.total_sent si'.total_received) := by
  refine ⟨reachable_infoIdent h (sc, v) (tget_mem hv),
    ⟨rfl, rfl, rfl, infoIdent_new sc⟩, ?_, ?_⟩
  · intro si si' val hid hadd
    exact infoIdent_add_unspent hid hadd
  · intro si si' val hid hadd
    exact infoIdent_add_spent hid hadd

/-- Witness for C7 on the state reached by pushing `cb0`. -/
theorem script_info_aggregate_identity_witness :
    tget s1cb0.scriptInfo [1] = some ⟨⟨50, 0⟩, ⟨0, 0⟩, ⟨50, 0⟩, 1⟩ ∧
    (⟨50, 0⟩ : U128Decimal).valQ =
      (⟨50, 0⟩ : U128Decimal).valQ - (⟨0, 0⟩ : U128Decimal).valQ :=
  ⟨by decide,
    (script_info_aggregate_identity
      (Reachable.step Reachable.empty
        (show push dbEmpty cb0 = some s1cb0 by decide))
      [1] ⟨⟨50, 0⟩, ⟨0, 0⟩, ⟨50, 0⟩, 1⟩ (by decide)).1⟩

/-! ## Claim C4: within-block spends never reach disk -/

theorem update_info_undos {s : DbState} {st : Staging} {sc : Script}
    {f : ScriptInfo → Option ScriptInfo} {st' : Staging}
    (h : update_info s st sc f = some st') :
    ∀ un ∈ st'.undos, un ∈ st.undos ∨ ∀ v : Vout, vputFor v un = false := by
  unfold update_info at h
  cases hst : tget st.infos sc with
  | some info =>
    rw [hst] at h
    simp only [bind, Option.bind_eq_some, Option.pure_def, Option.some.injEq] at h
    obtain ⟨info', hf, hst'⟩ := h
    subst hst'
    intro un hun
    exact Or.inl hun
  | none =>
    rw [hst] at h
    cases hdisk : tget s.scriptInfo sc with
    | none =>
      rw [hdisk] at h
      simp only [bind, Option.bind_eq_some, Option.pure_def, Option.some.injEq] at h
      obtain ⟨info', hf, hst'⟩ := h
      subst hst'
      intro un hun
      rcases List.mem_append.mp hun with h1 | h1
      · exact Or.inl h1
      · simp at h1
        subst h1
        exact Or.inr fun v => rfl
    | some dv =>
      rw [hdisk] at h
      simp only [bind, Option.bind_eq_some, Option.pure_def, Option.some.injEq] at h
      obtain ⟨info', hf, hst'⟩ := h
      subst hst'
      intro un hun
      rcases List.mem_append.mp hun with h1 | h1
      · exact Or.inl h1
      · simp at h1
        subst h1
        exact Or.inr fun v => rfl

theorem applyOp_vout_frame {s : DbState} {st st' : Staging} {v : Vout} :
    ∀ op : BlockOp, applyOp s st op = some st' →
    (∀ w, op = BlockOp.spend w → w ≠ v) →
    (∀ u, op = BlockOp.create u → u.key.vout ≠ v) →
    tget st'.utxos v = tget st.utxos v ∧
    (∀ un ∈ st'.undos, un ∈ st.undos ∨ vputFor v un = false) := by
  intro op h hsp hcr
  cases op with
  | spend w =>
    have hw : w ≠ v := hsp w rfl
    unfold applyOp at h
    simp only [] at h
    cases htg : tget st.utxos w with
    | some utxo =>
      rw [htg] at h
      simp only [] at h
      obtain ⟨i0, i1, hf, hinfos, hutxos, hsp2, hsrc⟩ := update_info_char h
      constructor
      · rw [hutxos]
        exact tget_tdel_ne st.utxos w v fun he => hw he.symm
      · intro un hun
        rcases update_info_undos h un hun with h1 | h1
        · exact Or.inl h1
        · exact Or.inr (h1 v)
    | none =>
      rw [htg] at h
      simp only [] at h
      simp only [bind, Option.bind_eq_some, Option.pure_def, Option.some.injEq] at h
      obtain ⟨utxo, hu, st1, hui, hst'⟩ := h
      subst hst'
      obtain ⟨i0, i1, hf, hinfos, hutxos, hsp2, hsrc⟩ := update_info_char hui
      have hvout := (get_utxo_char hu).1
      constructor
      · show tget st1.utxos v = tget st.utxos v
        rw [hutxos]
      · intro un hun
        rcases List.mem_append.mp hun with h1 | h1
        · rcases update_info_undos hui un h1 with h2 | h2
          · exact Or.inl h2
          · exact Or.inr (h2 v)
        · right
          simp only [List.mem_cons, List.mem_singleton] at h1
          rcases h1 with h1 | h1 | h1
          · subst h1
            show (utxo.key.vout == v) = false
            rw [hvout]
            simp [hw]
          · subst h1
            show (utxo.key.vout == v) = false
            rw [hvout]
            simp [hw]
          · cases h1
  | create u =>
    have hune : u.key.vout ≠ v := hcr u rfl
    unfold applyOp at h
    simp only [] at h
    simp only [bind, Option.bind_eq_some, Option.pure_def, Option.some.injEq] at h
    obtain ⟨st1, hui, hst'⟩ := h
    subst hst'
    obtain ⟨i0, i1, hf, hinfos, hutxos, hsp2, hsrc⟩ := update_info_char hui
    constructor
    · show tget (tput st1.utxos u.key.vout u) v = tget st.utxos v
      rw [tget_tput_ne st1.utxos u.key.vout v u fun he => hune he.symm, hutxos]
    · intro un hun
      rcases update_info_undos hui un hun with h1 | h1
      · exact Or.inl h1
      · exact Or.inr (h1 v)

theorem processOps_vout_frame {s : DbState} {v : Vout} :
    ∀ (ops : List BlockOp) (st st' : Staging),
    processOps s st ops = some st' →
    v ∉ spendVouts ops → v ∉ createVouts ops →
    tget st'.utxos v = tget st.utxos v ∧
    (∀ un ∈ st'.undos, un ∈ st.undos ∨ vputFor v un = false) := by
  intro ops
  induction ops with
  | nil =>
    intro st st' h _ _
    obtain rfl := Option.some.inj h
    exact ⟨rfl, fun un hun => Or.inl hun⟩
  | cons op rest ih =>
    intro st st' h hs hc
    simp only [processOps, bind, Option.bind_eq_some] at h
    obtain ⟨st1, hop, hrest⟩ := h
    have hsp : ∀ w, op = BlockOp.spend w → w ≠ v := by
      intro w hw heq
      subst hw
      subst heq
      exact hs (by rw [spendVouts_cons_spend]; exact List.mem_cons_self w _)
    have hcr : ∀ u, op = BlockOp.create u → u.key.vout ≠ v := by
      intro u hu heq
      subst hu
      exact hc (by rw [createVouts_cons_create, heq]; exact List.mem_cons_self v _)
    have hs' : v ∉ spendVouts rest := by
      intro hmem
      apply hs
      cases op with
      | spend w => rw [spendVouts_cons_spend]; exact List.mem_cons_of_mem w hmem
      | create u => rw [spendVouts_cons_create]; exact hmem
    have hc' : v ∉ createVouts rest := by
      intro hmem
      apply hc
      cases op with
      | spend w => rw [createVouts_cons_spend]; exact hmem
      | create u => rw [createVouts_cons_create]; exact List.mem_cons_of_mem u.key.vout hmem
    obtain ⟨ht1, hu1⟩ := applyOp_vout_frame op hop hsp hcr
    obtain ⟨ht2, hu2⟩ := ih st1 st' hrest hs' hc'
    refine ⟨ht2.trans ht1, ?_⟩
    intro un hun
    rcases hu2 un hun with h1 | h1
    · rcases hu1 un h1 with h2 | h2
      · exact Or.inl h2
      · exact Or.inr h2
    · exact Or.inr h1

theorem applyOp_staged_vout {s : DbState} {st st' : Staging} :
    ∀ op : BlockOp, applyOp s st op = some st' →
    (∀ kv ∈ st.utxos, kv.2.key.vout = kv.1) →
    ∀ kv ∈ st'.utxos, kv.2.key.vout = kv.1 := by
  intro op h hst
  cases op with
  | spend w =>
    unfold applyOp at h
    simp only [] at h
    cases htg : tget st.utxos w with
    | some utxo =>
      rw [htg] at h
      simp only [] at h
      obtain ⟨i0, i1, hf, hinfos, hutxos, hsp2, hsrc⟩ := update_info_char h
      intro kv hkv
      rw [hutxos] at hkv
      exact hst kv (mem_tdel hkv)
    | none =>
      rw [htg] at h
      simp only [] at h
      simp only [bind, Option.bind_eq_some, Option.pure_def, Option.some.injEq] at h
      obtain ⟨utxo, hu, st1, hui, hst'⟩ := h
      subst hst'
      obtain ⟨i0, i1, hf, hinfos, hutxos, hsp2, hsrc⟩ := update_info_char hui
      intro kv hkv
      have hkv' : kv ∈ st.utxos := by
        rw [← hutxos]
        exact hkv
      exact hst kv hkv'
  | create u =>
    unfold applyOp at h
    simp only [] at h
    simp only [bind, Option.bind_eq_some, Option.pure_def, Option.some.injEq] at h
    obtain ⟨st1, hui, hst'⟩ := h
    subst hst'
    obtain ⟨i0, i1, hf, hinfos, hutxos, hsp2, hsrc⟩ := update_info_char hui
    intro kv hkv
    rcases mem_tput hkv with rfl | hmem
    · rfl
    · rw [hutxos] at hmem
      exact hst kv hmem

theorem processOps_staged_vout (s : DbState) :
    ∀ (ops : List BlockOp) (st st' : Staging),
    (∀ kv ∈ st.utxos, kv.2.key.vout = kv.1) →
    processOps s st ops = some st' →
    ∀ kv ∈ st'.utxos, kv.2.key.vout = kv.1 := by
  intro ops
  induction ops with
  | nil =>
    intro st st' hst h
    obtain rfl := Option.some.inj h
    exact hst
  | cons op rest ih =>
    intro st st' hst h
    simp only [processOps, bind, Option.bind_eq_some] at h
    obtain ⟨st1, hop, hrest⟩ := h
    exact ih st1 st' (applyOp_staged_vout op hop hst) hrest

theorem processOps_inblock_spent {s : DbState} {v : Vout} {u : Utxo}
    (huv : u.key.vout = v) :
    ∀ (X Y Z : List BlockOp) (st : Staging),
    processOps s ⟨[], [], []⟩ (X ++ BlockOp.create u :: (Y ++ BlockOp.spend v :: Z)) = some st →
    v ∉ spendVouts X → v ∉ createVouts X →
    v ∉ spendVouts Y → v ∉ createVouts Y →
    v ∉ spendVouts Z → v ∉ createVouts Z →
    tget st.utxos v = none ∧ (∀ un ∈ st.undos, vputFor v un = false) := by
  intro X Y Z st h hsX hcX hsY hcY hsZ hcZ
  rw [processOps_append] at h
  simp only [Option.bind_eq_some] at h
  obtain ⟨st1, hX, hrest⟩ := h
  simp only [processOps, bind, Option.bind_eq_some] at hrest
  obtain ⟨st2, hcrop, hrest2⟩ := hrest
  rw [processOps_append] at hrest2
  simp only [Option.bind_eq_some] at hrest2
  obtain ⟨st3, hY, hrest3⟩ := hrest2
  simp only [processOps, bind, Option.bind_eq_some] at hrest3
  obtain ⟨st4, hspend, hZ⟩ := hrest3
  obtain ⟨htX, huX⟩ := processOps_vout_frame X ⟨[], [], []⟩ st1 hX hsX hcX
  have ht1 : tget st1.utxos v = none := htX
  have hu1 : ∀ un ∈ st1.undos, vputFor v un = false := by
    intro un hun
    rcases huX un hun with h1 | h1
    · cases h1
    · exact h1
  unfold applyOp at hcrop
  simp only [] at hcrop
  simp only [bind, Option.bind_eq_some, Option.pure_def, Option.some.injEq] at hcrop
  obtain ⟨st2', hui, hst2⟩ := hcrop
  subst hst2
  obtain ⟨i0, i1, hf, hinfos, hutxos, hsp2, hsrc⟩ := update_info_char hui
  have ht2 : tget (tput st2'.utxos u.key.vout u) v = some u := by
    rw [huv]
    exact tget_tput_same st2'.utxos v u
  have hu2 : ∀ un ∈ st2'.undos, vputFor v un = false := by
    intro un hun
    rcases update_info_undos hui un hun with h1 | h1
    · exact hu1 un h1
    · exact h1 v
  obtain ⟨htY, huY⟩ := processOps_vout_frame Y _ st3 hY hsY hcY
  have ht3 : tget st3.utxos v = some u := htY.trans ht2
  have hu3 : ∀ un ∈ st3.undos, vputFor v un = false := by
    intro un hun
    rcases huY un hun with h1 | h1
    · exact hu2 un h1
    · exact h1
  unfold applyOp at hspend
  simp only [] at hspend
  rw [ht3] at hspend
  simp only [] at hspend
  obtain ⟨j0, j1, hjf, hjinfos, hjutxos, hjsp, hjsrc⟩ := update_info_char hspend
  have ht4 : tget st4.utxos v = none := by
    rw [hjutxos]
    exact tget_tdel_same st3.utxos v
  have hu4 : ∀ un ∈ st4.undos, vputFor v un = false := by
    intro un hun
    rcases update_info_undos hspend un hun with h1 | h1
    · exact hu3 un h1
    · exact h1 v
  obtain ⟨htZ, huZ⟩ := processOps_vout_frame Z st4 st hZ hsZ hcZ
  refine ⟨htZ.trans ht4, ?_⟩
  intro un hun
  rcases huZ un hun with h1 | h1
  · exact hu4 un h1
  · exact h1

theorem stagedUndos_no_vput (v : Vout) :
    ∀ l : List (Vout × Utxo), ∀ un ∈ stagedUndos l, vputFor v un = false := by
  intro l
  induction l with
  | nil => intro un hun; cases hun
  | cons kv rest ih =>
    obtain ⟨vo, ut⟩ := kv
    intro un hun
    rcases List.mem_cons.mp hun with h1 | h1
    · subst h1; rfl
    · rcases List.mem_cons.mp h1 with h2 | h2
      · subst h2; rfl
      · exact ih un h2

theorem mem_foldl_udel {V2 : Type} :
    ∀ (us : List Undo) (t : List (UtxoKey × V2)) (kv : UtxoKey × V2),
    kv ∈ us.foldl (fun t u => match u with | Undo.UtxoPut x => tdel t x.key | _ => t) t →
    kv ∈ t := by
  intro us
  induction us with
  | nil => intro t kv h; exact h
  | cons u0 rest ih =>
    intro t kv h
    have h' := ih _ kv h
    cases u0 with
    | UtxoPut x => exact mem_tdel h'
    | UtxoDelete k => exact h'
    | UtxoKeyPut k => exact h'
    | UtxoKeyDelete w => exact h'
    | ScriptInfoPut si => exact h'
    | ScriptInfoDelete sc => exact h'

theorem mem_foldl_kdel {V2 : Type} :
    ∀ (us : List Undo) (t : List (Vout × V2)) (kv : Vout × V2),
    kv ∈ us.foldl (fun t u => match u with | Undo.UtxoKeyPut k => tdel t k.vout | _ => t) t →
    kv ∈ t := by
  intro us
  induction us with
  | nil => intro t kv h; exact h
  | cons u0 rest ih =>
    intro t kv h
    have h' := ih _ kv h
    cases u0 with
    | UtxoPut x => exact h'
    | UtxoDelete k => exact h'
    | UtxoKeyPut k => exact mem_tdel h'
    | UtxoKeyDelete w => exact h'
    | ScriptInfoPut si => exact h'
    | ScriptInfoDelete sc => exact h'

/-- Claim C4: when a block's flat operation list creates the output `v`
and spends it again later in the same block (and the block's spends and
creates are unrepeated, and `v` is fresh on disk), `push` writes no `Utxo`
row and no `UtxoKey` row for `v`, and the stored `BlockUndo` list contains
no `UtxoPut` and no `UtxoKeyPut` entry for `v`. -/
theorem within_block_spend_never_reaches_disk {s s' : DbState} {b : Rpc.Block}
    {ops X Y Z : List BlockOp} {u : Utxo} {v : Vout}
    (hp : push s b = some s')
    (hops : blockOps b.height b.tx = some ops)
    (hsplit : ops = X ++ BlockOp.create u :: (Y ++ BlockOp.spend v :: Z))
    (huv : u.key.vout = v)
    (hsn : (spendVouts ops).Nodup)
    (hcn : (createVouts ops).Nodup)
    (hfresh : ∀ kv ∈ s.utxo, kv.1.vout ≠ v)
    (hkfresh : ∀ kv ∈ s.utxoKey, kv.1 ≠ v) :
    (∀ kv ∈ s'.utxo, kv.1.vout ≠ v) ∧
    tget s'.utxoKey v = none ∧
    (∀ us, tget s'.blockUndo b.height = some us →
      ∀ un ∈ us, vputFor v un = false) := by
  have hsv : spendVouts ops = spendVouts X ++ (spendVouts Y ++ v :: spendVouts Z) := by
    rw [hsplit, spendVouts_append, spendVouts_cons_create, spendVouts_append,
      spendVouts_cons_spend]
  have hcv : createVouts ops = createVouts X ++ v :: (createVouts Y ++ createVouts Z) := by
    rw [hsplit, createVouts_append, createVouts_cons_create, huv, createVouts_append,
      createVouts_cons_spend]
  rw [hsv] at hsn
  rw [hcv] at hcn
  obtain ⟨hsnX, hsnR, hsdisj⟩ := List.nodup_append.mp hsn
  obtain ⟨hsnY, hsnvZ, hsdisj2⟩ := List.nodup_append.mp hsnR
  have hvmem : v ∈ spendVouts Y ++ v :: spendVouts Z :=
    List.mem_append.mpr (Or.inr (List.mem_cons_self v _))
  have hsX : v ∉ spendVouts X := fun hm => hsdisj hm hvmem
  have hsY : v ∉ spendVouts Y := fun hm => hsdisj2 hm (List.mem_cons_self v _)
  have hsZ : v ∉ spendVouts Z := (List.nodup_cons.mp hsnvZ).1
  obtain ⟨hcnX, hcnR, hcdisj⟩ := List.nodup_append.mp hcn
  have hcX : v ∉ createVouts X := fun hm => hcdisj hm (List.mem_cons_self v _)
  have hcYZ : v ∉ createVouts Y ++ createVouts Z := (List.nodup_cons.mp hcnR).1
  have hcY : v ∉ createVouts Y := fun hm => hcYZ (List.mem_append.mpr (Or.inl hm))
  have hcZ : v ∉ createVouts Z := fun hm => hcYZ (List.mem_append.mpr (Or.inr hm))
  unfold push at hp
  simp only [Option.map_eq_some'] at hp
  obtain ⟨st, hpb, hs'⟩ := hp
  subst hs'
  rw [processBlock_eq, hops] at hpb
  simp only [Option.some_bind] at hpb
  have hpo := hpb
  rw [hsplit] at hpo
  obtain ⟨hnone, hclean⟩ :=
    processOps_inblock_spent huv X Y Z st hpo hsX hcX hsY hcY hsZ hcZ
  have hstv := processOps_staged_vout s ops ⟨[], [], []⟩ st
    (by intro kv hkv; cases hkv) hpb
  have hstne : ∀ a ∈ st.utxos, a.1 ≠ v := tget_none_iff.mp hnone
  have hual : ∀ un ∈ finalUndos st, vputFor v un = false := by
    intro un hun
    rcases List.mem_append.mp hun with h1 | h1
    · exact hclean un h1
    · exact stagedUndos_no_vput v st.utxos un h1
  refine ⟨?_, ?_, ?_⟩
  · intro kv hkv
    have hC : (applyBlock s b st).utxo =
        (finalUndos st).foldl
          (fun t u => match u with | Undo.UtxoPut x => tdel t x.key | _ => t)
          (st.utxos.foldl (fun t kv => tput t kv.2.key (kv.2.coinbase, kv.2.value)) s.utxo) :=
      rfl
    rw [hC] at hkv
    have hkv1 := mem_foldl_udel (finalUndos st) _ kv hkv
    rcases mem_foldl_tput (fun kv => kv.2.key) (fun kv => (kv.2.coinbase, kv.2.value))
        st.utxos s.utxo kv hkv1 with hb | ⟨a, ha, rfl⟩
    · exact hfresh kv hb
    · show a.2.key.vout ≠ v
      rw [hstv a ha]
      exact hstne a ha
  · apply tget_eq_none_of_not_mem
    intro kv hkv
    have hC : (applyBlock s b st).utxoKey =
        (finalUndos st).foldl
          (fun t u => match u with | Undo.UtxoKeyPut k => tdel t k.vout | _ => t)
          (st.utxos.foldl (fun t kv => tput t kv.1 (kv.2.key.height, kv.2.key.script)) s.utxoKey) :=
      rfl
    rw [hC] at hkv
    have hkv1 := mem_foldl_kdel (finalUndos st) _ kv hkv
    rcases mem_foldl_tput (fun kv => kv.1) (fun kv => (kv.2.key.height, kv.2.key.script))
        st.utxos s.utxoKey kv hkv1 with hb | ⟨a, ha, rfl⟩
    · exact hkfresh kv hb
    · exact hstne a ha
  · intro us hus
    have hC : (applyBlock s b st).blockUndo = tput s.blockUndo b.height (finalUndos st) := rfl
    rw [hC, tget_tput_same] at hus
    obtain rfl := Option.some.inj hus
    exact hual

/-- Witness for C4 on `b1` pushed over `s1cb0`: the within-block spent
output `(200,0)` owns no `UtxoKey` row, the surviving `Utxo` row for
`(200,1)` is a different outpoint, and the `UtxoKeyPut` undo recorded in
`BlockUndo[1]` is for the disk-spent coinbase, not for `(200,0)`. -/
theorem within_block_spend_never_reaches_disk_witness :
    tget sPush1.utxoKey ⟨200, 0⟩ = none ∧
    (⟨[1], 1, ⟨200, 1⟩⟩ : UtxoKey).vout ≠ (⟨200, 0⟩ : Vout) ∧
    vputFor ⟨200, 0⟩ (Undo.UtxoKeyPut ⟨[1], 0, ⟨100, 0⟩⟩) = false := by
  have h := within_block_spend_never_reaches_disk
    (show push s1cb0 b1 = some sPush1 by decide)
    (show blockOps b1.height b1.tx = some opsB1 by decide)
    (show opsB1 =
      [BlockOp.spend ⟨100, 0⟩] ++
        BlockOp.create ⟨⟨[2], 1, ⟨200, 0⟩⟩, false, ⟨30, 0⟩⟩ ::
          ([BlockOp.create ⟨⟨[1], 1, ⟨200, 1⟩⟩, false, ⟨20, 0⟩⟩] ++
            BlockOp.spend ⟨200, 0⟩ ::
              [BlockOp.create ⟨⟨[3], 1, ⟨300, 0⟩⟩, false, ⟨30, 0⟩⟩]) from rfl)
    rfl
    (by decide) (by decide) (by decide) (by decide)
  refine ⟨h.2.1, ?_, ?_⟩
  · exact h.1 (⟨⟨[1], 1, ⟨200, 1⟩⟩, (false, ⟨20, 0⟩)⟩ : UtxoKey × (Bool × U128Decimal))
      (by decide)
  · exact h.2.2
      [Undo.ScriptInfoPut ⟨[1], ⟨50, 0⟩, ⟨0, 0⟩, ⟨50, 0⟩, 1⟩,
       Undo.UtxoKeyPut ⟨[1], 0, ⟨100, 0⟩⟩,
       Undo.UtxoPut ⟨⟨[1], 0, ⟨100, 0⟩⟩, true, ⟨50, 0⟩⟩,
       Undo.ScriptInfoDelete [2],
       Undo.ScriptInfoDelete [3],
       Undo.UtxoDelete ⟨[3], 1, ⟨300, 0⟩⟩,
       Undo.UtxoKeyDelete ⟨300, 0⟩,
       Undo.UtxoDelete ⟨[1], 1, ⟨200, 1⟩⟩,
       Undo.UtxoKeyDelete ⟨200, 1⟩]
      (by decide) (Undo.UtxoKeyPut ⟨[1], 0, ⟨100, 0⟩⟩) (by decide)

end Oxtu
